import Mathlib

/-!
Verification of the minigc virtual machine: a shallow embedding of the
generation-tagged slot store, the mark-sweep garbage collector and the
bytecode interpreter, together with proofs about them.

Conventions of the embedding:
* Rust in-place mutation becomes explicit state passing.
* A Rust panic (arena indexing with a stale identifier, `Option::unwrap`
  on `None`, slice indexing out of bounds) and a non-terminating recursion
  are both modelled by `Option`-valued functions returning `none`; fuelled
  functions carry an `F` suffix and a `Nat` fuel argument.
* `i32` arithmetic uses release-mode wrap-around semantics (`wrap32`).
* `f32` payloads are carried as raw bit patterns; IEEE-754 arithmetic,
  comparison and decimal rendering are not modelled (no verified claim
  concerns Float computations).
* The operand stack `Vec<Index>` is modelled as a list whose head is the
  top of the stack; likewise the stack of locals frames.
-/

namespace MiniGC

/-- Modelled from the spec: the heap identifier of the generational slot
store (the external `generational_arena` crate; §3 "an opaque pair
(slot position, generation counter)", equal only if both fields match). -/
structure Index where
  index : Nat
  generation : Nat
deriving DecidableEq

/-- Modelled from the spec (§9): one slot of the growable table — either
free (holding the next free-list entry) or occupied by a payload tagged
with the generation it was created at. -/
inductive Entry (T : Type) where
  | Free (next_free : Option Nat)
  | Occupied (generation : Nat) (value : T)
deriving DecidableEq

/-- Modelled from the spec (§4.1, §9): the generational slot store
`generational_arena::Arena` — a table of slots, a global generation
counter bumped on every free, a free-list head and a live count. -/
structure Arena (T : Type) where
  items : List (Entry T)
  generation : Nat
  free_list_head : Option Nat
  len : Nat
deriving DecidableEq

/-- `Arena::get`: the payload at `id`, or `none` when the slot is free,
out of range, or its generation does not match (a stale identifier). -/
def Arena.get (a : Arena T) (id : Index) : Option T :=
  match a.items[id.index]? with
  | some (.Occupied g v) => if g = id.generation then some v else none
  | _ => none

/-- `Arena::get_unknown_gen`: the occupant of raw slot `i` regardless of
generation, together with its full identifier. -/
def Arena.get_unknown_gen (a : Arena T) (i : Nat) : Option (T × Index) :=
  match a.items[i]? with
  | some (.Occupied g v) => some (v, ⟨i, g⟩)
  | _ => none

/-- Overwrite the payload of the (already validated) slot of `id`;
this is the write half of `get_mut`, used only after a successful get. -/
def Arena.set (a : Arena T) (id : Index) (v : T) : Arena T :=
  { a with items := a.items.set id.index (.Occupied id.generation v) }

/-- `Arena::reserve`: extend the table with `additional` free slots
chained onto the front of the free list. -/
def Arena.reserve (a : Arena T) (additional : Nat) : Arena T :=
  let start := a.items.length
  let fin := start + additional
  { a with
    items := a.items ++ (List.range' start additional).map
      (fun i => if i + 1 = fin then Entry.Free a.free_list_head
                else Entry.Free (some (i + 1))),
    free_list_head := some start }

/-- Occupy free slot `i` with `f idx` where `idx` is the identifier the
new occupant receives (`insert_with` passes it to the payload builder).
Returns `none` when the slot is not actually free — the situation in
which the crate aborts with a corrupt-free-list failure. -/
def Arena.occupy (a : Arena T) (i : Nat) (f : Index → T) : Option (Index × Arena T) :=
  match a.items[i]? with
  | some (.Free next) =>
    let idx : Index := ⟨i, a.generation⟩
    some (idx, { a with
      items := a.items.set i (.Occupied a.generation (f idx)),
      free_list_head := next,
      len := a.len + 1 })
  | _ => none

/-- `Arena::insert_with` (and `insert`): take the head of the free list,
growing the table first (`reserve(len)`) when the free list is empty. -/
def Arena.insertWith (a : Arena T) (f : Index → T) : Option (Index × Arena T) :=
  match a.free_list_head with
  | some i => a.occupy i f
  | none =>
    let a2 := a.reserve a.items.length
    match a2.free_list_head with
    | some i => a2.occupy i f
    | none => none

/-- `Arena::insert`. -/
def Arena.insert (a : Arena T) (v : T) : Option (Index × Arena T) :=
  a.insertWith (fun _ => v)

/-- The empty table. -/
def Arena.empty : Arena T :=
  { items := [], generation := 0, free_list_head := none, len := 0 }

/-- `Arena::with_capacity(n)` (the crate clamps the capacity to at
least 1). -/
def Arena.withCapacity (n : Nat) : Arena T :=
  (Arena.empty : Arena T).reserve (max n 1)

/-- `Arena::new()`: the crate's default capacity is 4. -/
def Arena.new : Arena T :=
  (Arena.withCapacity 4 : Arena T)

/-- The heap value model of `interpreter.rs`: a 32-bit integer, a 32-bit
float (carried as its raw bits, see the header), or a structure of
references to already-allocated objects. -/
inductive Value where
  | Int (i : Int)
  | Float (bits : Nat)
  | Struct (v : List Index)
deriving DecidableEq

/-- `Tree::children` for `Value`: a struct's references, otherwise none. -/
def Value.children : Value → List Index
  | .Struct v => v
  | .Int _ => []
  | .Float _ => []

/-- A heap object: mark bit, its own identity and the payload. -/
structure Object (V : Type) where
  marked : Bool
  index : Index
  value : V
deriving DecidableEq

/-- `Object::new`: freshly allocated objects are unmarked. -/
def Object.new (index : Index) (value : V) : Object V :=
  { value, index, marked := false }

/-- `Tree::children` for `Object` delegates to the value. -/
def Object.children (o : Object Value) : List Index :=
  o.value.children

/-- The VM of `vm.rs`, instantiated at `Value`: the heap, the operand
stack (head = top), the GC threshold and the GC on/off flag. -/
structure VM where
  objects : Arena (Object Value)
  stack : List Index
  max_objects : Nat
  gc_on : Bool
deriving DecidableEq

/-- `VM::new(size)`. -/
def VM.new (size : Nat) : VM :=
  { objects := Arena.new, stack := [], max_objects := size, gc_on := true }

/-- `VM::get` (and the read half of `get_mut`): arena indexing, which in
Rust panics on a stale or invalid identifier — modelled as `none`. -/
def VM.get (vm : VM) (id : Index) : Option (Object Value) :=
  vm.objects.get id

/-- `VM::push`. -/
def VM.push (vm : VM) (id : Index) : VM :=
  { vm with stack := id :: vm.stack }

/-- `VM::top`. -/
def VM.top (vm : VM) : Option Index :=
  vm.stack.head?

/-- `VM::pop`. -/
def VM.pop (vm : VM) : VM × Option Index :=
  match vm.stack with
  | [] => (vm, none)
  | i :: rest => ({ vm with stack := rest }, some i)

/-- Sequential marking of a list of identifiers, threading the state —
the `for child in obj.children()` loop body of `VM::mark` and the loop
of `VM::mark_all`. -/
def markFold (g : VM → Index → Option VM) : VM → List Index → Option VM
  | vm, [] => some vm
  | vm, c :: cs =>
    match g vm c with
    | none => none
    | some vm2 => markFold g vm2 cs

/-- `VM::mark`: set the object's mark bit, then recursively mark every
child — unconditionally, with no check of the mark bit and no visited
set. The recursion is fuelled; `none` covers both the panic on an
invalid identifier and fuel exhaustion (the Rust recursion diverging). -/
def markF : Nat → VM → Index → Option VM
  | 0, _, _ => none
  | fuel + 1, vm, id =>
    match vm.objects.get id with
    | none => none
    | some o =>
      markFold (markF fuel)
        { vm with objects := vm.objects.set id { o with marked := true } }
        o.children

/-- `VM::mark_all`: mark from every operand-stack root in turn. -/
def mark_allF (fuel : Nat) (vm : VM) : Option VM :=
  markFold (markF fuel) vm vm.stack

/-- One iteration of `Arena::retain` as called by `VM::sweep`, at slot
`i`: a marked occupant is kept with its mark bit reset; an unmarked
occupant is removed (`Arena::remove`: the slot becomes free, the arena
generation is bumped, the slot heads the free list, the count drops). -/
def sweepStep (a : Arena (Object Value)) (i : Nat) : Arena (Object Value) :=
  match a.items[i]? with
  | some (.Occupied g o) =>
    if o.marked then
      { a with items := a.items.set i (.Occupied g { o with marked := false }) }
    else
      { a with
        items := a.items.set i (.Free a.free_list_head),
        generation := a.generation + 1,
        free_list_head := some i,
        len := a.len - 1 }
  | _ => a

/-- `Arena::retain` over every slot in order, with the sweep predicate. -/
def sweepArena (a : Arena (Object Value)) : Arena (Object Value) :=
  (List.range a.items.length).foldl sweepStep a

/-- `VM::sweep`. -/
def VM.sweep (vm : VM) : VM :=
  { vm with objects := sweepArena vm.objects }

/-- `VM::garbage_collect`: a no-op when the GC flag is off, otherwise
mark from the operand stack then sweep. -/
def VM.garbage_collectF (fuel : Nat) (vm : VM) : Option VM :=
  if vm.gc_on then (mark_allF fuel vm).map VM.sweep else some vm

/-- `VM::push_value`: insert an unmarked object built by `insert_with`,
push its identifier, and collect when the live count exceeds the
threshold. -/
def VM.push_valueF (fuel : Nat) (vm : VM) (val : Value) : Option VM :=
  match vm.objects.insertWith (fun idx => Object.new idx val) with
  | none => none
  | some (idx, arena) =>
    let vm2 := { vm with objects := arena, stack := idx :: vm.stack }
    if vm2.objects.len > vm2.max_objects then vm2.garbage_collectF fuel else some vm2

/-- `VM::gc`: toggle the flag; switching it on while over the threshold
collects immediately. -/
def VM.gcF (fuel : Nat) (vm : VM) (flag : Bool) : Option VM :=
  let vm2 := { vm with gc_on := flag }
  if vm2.gc_on ∧ vm2.objects.len > vm2.max_objects then
    vm2.garbage_collectF fuel
  else some vm2

/-- Rendering of a value (`DisplayArena`): `<i>i` for integers, `<bits>f`
for floats (bit-pattern placeholder, see the header), and
`Struct(f1, f2, ...)` recursively through the arena, which panics
(`none`) on a dangling field reference. -/
def dispValF : Nat → Arena (Object Value) → Value → Option String
  | 0, _, _ => none
  | fuel + 1, a, v =>
    match v with
    | .Int i => some (toString i ++ "i")
    | .Float bits => some (toString bits ++ "f")
    | .Struct fields =>
      (fields.mapM (fun i => (a.get i).bind (fun o => dispValF fuel a o.value))).map
        (fun parts => "Struct(" ++ String.intercalate ", " parts ++ ")")

/-- `VM::display`: render the object at `id` (panics on an invalid
identifier — `none`). -/
def VM.displayF (fuel : Nat) (vm : VM) (id : Index) : Option String :=
  (vm.objects.get id).bind (fun o => dispValF fuel vm.objects o.value)

/-- The instruction set of `interpreter.rs`. -/
inductive Instruction where
  | ConstInt (i : Int)
  | ConstFloat (bits : Nat)
  | PushStruct (n : Nat)
  | GetStruct (i : Nat)
  | GetLocal (i : Nat)
  | Label (s : String)
  | IAdd
  | FAdd
  | ISub
  | FSub
  | IMul
  | FMul
  | Call (s : String) (n : Nat)
  | Jump (s : String)
  | JmpCmp (s : String)
  | CEq
  | CNe
  | CLt
  | CLe
  | CGt
  | CGe
  | Return
deriving DecidableEq

/-- Whether an instruction is a load-time label marker. -/
def Instruction.isLabel : Instruction → Bool
  | .Label _ => true
  | _ => false

/-- The outcome of executing one instruction. -/
inductive InstructionResult where
  | Next
  | Jump (i : Index)
  | Stop
deriving DecidableEq

/-- `InterpreterError` (the `IO` variant is rendered `IOError` here; its
payload is irrelevant to every claim). -/
inductive InterpreterError where
  | ValueMismatch (s : String)
  | InvalidInstructionPointer
  | StackUnderflow
  | UnresolvedLabel (s : String)
  | IOError
deriving DecidableEq

/-- Decidable equality for `Except`, for evaluating run results on
concrete programs. -/
instance instDecEqExcept {ε α : Type} [DecidableEq ε] [DecidableEq α] :
    DecidableEq (Except ε α)
  | .error a, .error b =>
    if h : a = b then .isTrue (by rw [h]) else .isFalse (by simp [h])
  | .error _, .ok _ => .isFalse (by simp)
  | .ok _, .error _ => .isFalse (by simp)
  | .ok a, .ok b =>
    if h : a = b then .isTrue (by rw [h]) else .isFalse (by simp [h])

/-- The single execution frame: instruction pointer plus the stack of
per-call locals frames (head = innermost). -/
structure Frame where
  instr_ptr : Index
  locals_stack : List (List Index)
deriving DecidableEq

/-- The interpreter: VM, decoded-instruction store, label table
(`HashMap` modelled as an association list where the most recent insert
is at the head) and the optional frame. -/
structure Interpreter where
  vm : VM
  instructions : Arena Instruction
  labels : List (String × Index)
  frame : Option Frame
deriving DecidableEq

/-- `HashMap::get`: the most recently inserted binding of `s`. -/
def lookupLabel : List (String × Index) → String → Option Index
  | [], _ => none
  | (k, v) :: rest, s => if k = s then some v else lookupLabel rest s

/-- The state threaded by the load loop of `Interpreter::new`. -/
structure LoadSt where
  instructions : Arena Instruction
  labels : List (String × Index)
  next_label : Option String
  first_instr : Option Index

/-- The non-label arm of the load loop: insert the instruction, record
it as `first_instr` if none is recorded yet, and bind the pending label
(if any) to its identifier. The `none` insert branch is unreachable from
the arenas `Interpreter::new` builds (in Rust it is the
corrupt-free-list panic). -/
def loadInsert (st : LoadSt) (instr : Instruction) : LoadSt :=
  match st.instructions.insert instr with
  | none => st
  | some (idx, arena) =>
    { instructions := arena,
      first_instr := st.first_instr.or (some idx),
      labels := match st.next_label with
        | some lbl => (lbl, idx) :: st.labels
        | none => st.labels,
      next_label := none }

/-- One iteration of the load loop: a label marker becomes the pending
label (overwriting any previous pending label); any other instruction
goes through `loadInsert`. -/
def loadStep (st : LoadSt) (instruction : Instruction) : LoadSt :=
  match instruction with
  | .Label s => { st with next_label := some s }
  | instr => loadInsert st instr

/-- `Interpreter::new`: load the instructions (capacity = input length)
and point the frame at the first non-label instruction; the function
returns `Some` unconditionally — with no non-label instruction the
interpreter simply has no frame. -/
def Interpreter.new (input_instructions : List Instruction) : Option Interpreter :=
  let st := input_instructions.foldl loadStep
    { instructions := Arena.withCapacity input_instructions.length,
      labels := [], next_label := none, first_instr := none }
  some { vm := VM.new 10,
         instructions := st.instructions,
         labels := st.labels,
         frame := st.first_instr.map (fun p => { instr_ptr := p, locals_stack := [] }) }

/-- Release-mode `i32` wrap-around. -/
def wrap32 (n : Int) : Int :=
  (n + 2 ^ 31) % 2 ^ 32 - 2 ^ 31

/-- Placeholder combination of two `f32` bit patterns (see the header:
no verified claim depends on Float arithmetic). -/
def f32op (a b : Nat) : Nat :=
  a + b

/-- Placeholder `f32` comparison on bit patterns (see the header). -/
def f32cmp (a b : Nat) : Bool :=
  a < b

/-- `(0..n).map(|_| self.vm.pop()).rev().collect::<Option<Vec<_>>>()`:
`n` sequential pops collected *in pop order* — the `.rev()` in the
source is an inert adapter here, because reversing a `map` whose closure
ignores its argument permutes the arguments `0..n`, not the pops, so the
collected vector still lists the pops first-to-last. Underflow drains
the stack and yields `none` for the collection. -/
def VM.popN : Nat → VM → VM × Option (List Index)
  | 0, vm => (vm, some [])
  | n + 1, vm =>
    match vm.pop with
    | (vm2, none) => (vm2, none)
    | (vm2, some i) =>
      match VM.popN n vm2 with
      | (vm3, none) => (vm3, none)
      | (vm3, some rest) => (vm3, some (i :: rest))

/-- `Interpreter::get_binop`: pop the right then the left operand
(underflow aborts), then dereference both (a stale identifier panics —
`none`). -/
def VM.get_binop (vm : VM) :
    VM × Option (Except InterpreterError (Object Value × Object Value)) :=
  match vm.pop with
  | (vm1, none) => (vm1, some (.error .StackUnderflow))
  | (vm1, some b) =>
    match vm1.pop with
    | (vm2, none) => (vm2, some (.error .StackUnderflow))
    | (vm2, some a) =>
      match vm2.get a, vm2.get b with
      | some oa, some ob => (vm2, some (.ok (oa, ob)))
      | _, _ => (vm2, none)

/-- The result type of `Interpreter::execute`: the mutated interpreter
paired with the instruction outcome or the error, `none` for a panic or
an exhausted fuel. -/
abbrev ExecOut := Option (Interpreter × Except InterpreterError InstructionResult)

/-- The `binop!` macro arm for the `Int` variant. -/
def Interpreter.execBinInt (fuel : Nat) (it : Interpreter) (op : Int → Int → Int) : ExecOut :=
  match it.vm.get_binop with
  | (_, none) => none
  | (vm, some (.error e)) => some ({ it with vm }, .error e)
  | (vm, some (.ok (oa, ob))) =>
    match oa.value, ob.value with
    | .Int a, .Int b =>
      (vm.push_valueF fuel (.Int (op a b))).map
        (fun vm2 => ({ it with vm := vm2 }, .ok .Next))
    | _, _ =>
      match vm.displayF fuel oa.index, vm.displayF fuel ob.index with
      | some sa, some sb => some ({ it with vm }, .error (.ValueMismatch (sa ++ ", " ++ sb)))
      | _, _ => none

/-- The `binop!` macro arm for the `Float` variant. -/
def Interpreter.execBinFloat (fuel : Nat) (it : Interpreter) (op : Nat → Nat → Nat) : ExecOut :=
  match it.vm.get_binop with
  | (_, none) => none
  | (vm, some (.error e)) => some ({ it with vm }, .error e)
  | (vm, some (.ok (oa, ob))) =>
    match oa.value, ob.value with
    | .Float a, .Float b =>
      (vm.push_valueF fuel (.Float (op a b))).map
        (fun vm2 => ({ it with vm := vm2 }, .ok .Next))
    | _, _ =>
      match vm.displayF fuel oa.index, vm.displayF fuel ob.index with
      | some sa, some sb => some ({ it with vm }, .error (.ValueMismatch (sa ++ ", " ++ sb)))
      | _, _ => none

/-- The `cmp!` macro: both `Int` or both `Float`, pushing `Int(1)` or
`Int(0)`; anything else is a value mismatch. -/
def Interpreter.execCmp (fuel : Nat) (it : Interpreter)
    (iop : Int → Int → Bool) (fop : Nat → Nat → Bool) : ExecOut :=
  match it.vm.get_binop with
  | (_, none) => none
  | (vm, some (.error e)) => some ({ it with vm }, .error e)
  | (vm, some (.ok (oa, ob))) =>
    match oa.value, ob.value with
    | .Int a, .Int b =>
      (vm.push_valueF fuel (.Int (if iop a b then 1 else 0))).map
        (fun vm2 => ({ it with vm := vm2 }, .ok .Next))
    | .Float a, .Float b =>
      (vm.push_valueF fuel (.Int (if fop a b then 1 else 0))).map
        (fun vm2 => ({ it with vm := vm2 }, .ok .Next))
    | _, _ =>
      match vm.displayF fuel oa.index, vm.displayF fuel ob.index with
      | some sa, some sb => some ({ it with vm }, .error (.ValueMismatch (sa ++ ", " ++ sb)))
      | _, _ => none

/-- `Interpreter::execute`, one instruction. -/
def Interpreter.executeF (fuel : Nat) (it : Interpreter) (instr : Instruction) : ExecOut :=
  match instr with
  | .ConstInt i =>
    (it.vm.push_valueF fuel (.Int i)).map (fun vm => ({ it with vm }, .ok .Next))
  | .ConstFloat bits =>
    (it.vm.push_valueF fuel (.Float bits)).map (fun vm => ({ it with vm }, .ok .Next))
  | .PushStruct n =>
    match it.vm.popN n with
    | (vm, none) => some ({ it with vm }, .error .StackUnderflow)
    | (vm, some vals) =>
      (vm.push_valueF fuel (.Struct vals)).map (fun vm2 => ({ it with vm := vm2 }, .ok .Next))
  | .GetLocal i =>
    match it.frame with
    | none => none
    | some f =>
      match f.locals_stack.head? with
      | none => some (it, .error .StackUnderflow)
      | some s =>
        match s[i]? with
        | none => none
        | some idx => some ({ it with vm := it.vm.push idx }, .ok .Next)
  | .GetStruct i =>
    match it.vm.pop with
    | (vm, none) => some ({ it with vm }, .error .StackUnderflow)
    | (vm, some sid) =>
      match vm.get sid with
      | none => none
      | some o =>
        match o.value with
        | .Struct fields =>
          match fields[i]? with
          | none => none
          | some fidx => some ({ it with vm := vm.push fidx }, .ok .Next)
        | _ =>
          match vm.displayF fuel sid with
          | some s => some ({ it with vm }, .error (.ValueMismatch s))
          | none => none
  | .Label _ => some (it, .ok .Next)
  | .IAdd => it.execBinInt fuel (fun a b => wrap32 (a + b))
  | .FAdd => it.execBinFloat fuel f32op
  | .ISub => it.execBinInt fuel (fun a b => wrap32 (a - b))
  | .FSub => it.execBinFloat fuel f32op
  | .IMul => it.execBinInt fuel (fun a b => wrap32 (a * b))
  | .FMul => it.execBinFloat fuel f32op
  | .Call s n =>
    match lookupLabel it.labels s with
    | none => some (it, .error (.UnresolvedLabel s))
    | some next_ptr =>
      match it.vm.popN n with
      | (vm, none) => some ({ it with vm }, .error .StackUnderflow)
      | (vm, some locals) =>
        match it.frame with
        | none => none
        | some f =>
          let f2 : Frame := { f with locals_stack := locals :: f.locals_stack }
          some ({ it with vm := vm, frame := some f2 }, .ok (.Jump next_ptr))
  | .Jump s =>
    match lookupLabel it.labels s with
    | none => some (it, .error (.UnresolvedLabel s))
    | some next_ptr => some (it, .ok (.Jump next_ptr))
  | .JmpCmp s =>
    match lookupLabel it.labels s with
    | none => some (it, .error (.UnresolvedLabel s))
    | some instr_ptr =>
      match it.vm.pop with
      | (vm, none) => some ({ it with vm }, .error .StackUnderflow)
      | (vm, some val) =>
        match vm.get val with
        | none => none
        | some o =>
          match o.value with
          | .Int 1 => some ({ it with vm }, .ok (.Jump instr_ptr))
          | .Int 0 => some ({ it with vm }, .ok .Next)
          | _ =>
            match vm.displayF fuel o.index with
            | some s2 => some ({ it with vm }, .error (.ValueMismatch s2))
            | none => none
  | .CEq => it.execCmp fuel (fun a b => a = b) (fun a b => a = b)
  | .CNe => it.execCmp fuel (fun a b => a ≠ b) (fun a b => a ≠ b)
  | .CLt => it.execCmp fuel (fun a b => a < b) f32cmp
  | .CLe => it.execCmp fuel (fun a b => a ≤ b) (fun a b => a ≤ b)
  | .CGt => it.execCmp fuel (fun a b => a > b) (fun a b => b < a)
  | .CGe => it.execCmp fuel (fun a b => a ≥ b) (fun a b => b ≤ a)
  | .Return => some (it, .ok .Stop)

/-- The value `run` returns once the loop has stopped: the top of the
operand stack, or a stack underflow. -/
def Interpreter.finishRes (it : Interpreter) : Except InterpreterError Index :=
  match it.vm.top with
  | some i => .ok i
  | none => .error .StackUnderflow

/-- Move the frame's instruction pointer (`Frame::move_to`; the frame is
always present when this is reached). -/
def Interpreter.moveTo (it : Interpreter) (id : Index) : Interpreter :=
  { it with frame := it.frame.map (fun f => { f with instr_ptr := id }) }

/-- `Interpreter::run`: the fetch-decode-execute loop. `Next` advances
to the physically next slot of the instruction store via
`get_unknown_gen(slot + 1)`; reaching no instruction ends the loop and
returns the top of stack. -/
def Interpreter.runF : Nat → Interpreter → Option (Interpreter × Except InterpreterError Index)
  | 0, _ => none
  | fuel + 1, it =>
    match it.frame with
    | none => some (it, it.finishRes)
    | some f =>
      match it.instructions.get f.instr_ptr with
      | none => some (it, it.finishRes)
      | some instr =>
        match it.executeF fuel instr with
        | none => none
        | some (it2, .error e) => some (it2, .error e)
        | some (it2, .ok .Next) =>
          match it2.frame with
          | none => none
          | some f2 =>
            match it2.instructions.get_unknown_gen (f2.instr_ptr.index + 1) with
            | some (_, idx) => Interpreter.runF fuel (it2.moveTo idx)
            | none => some (it2, it2.finishRes)
        | some (it2, .ok (.Jump j)) => Interpreter.runF fuel (it2.moveTo j)
        | some (it2, .ok .Stop) => some (it2, it2.finishRes)

/-! ## Specification-level notions -/

/-- `id` dereferences successfully in `vm`'s heap. -/
def Valid (vm : VM) (id : Index) : Prop :=
  (vm.objects.get id).isSome

/-- The heap reference graph: `b` is a direct `Struct` child of the
object at `a`. -/
def childOf (vm : VM) (a b : Index) : Prop :=
  ∃ o, vm.objects.get a = some o ∧ b ∈ Object.children o

/-- Transitive reachability (reflexive) through `Struct` children. -/
def ReachF (vm : VM) : Index → Index → Prop :=
  Relation.ReflTransGen (childOf vm)

/-- Reachable from some operand-stack root. -/
def ReachStack (vm : VM) (j : Index) : Prop :=
  ∃ r ∈ vm.stack, ReachF vm r j

/-- The object at `j` exists and carries a set mark bit. -/
def markedIn (vm : VM) (j : Index) : Prop :=
  ∃ o, vm.objects.get j = some o ∧ o.marked = true

/-- Every live object's mark bit is clear (§3: the state invariant
outside a collection cycle). -/
def AllUnmarked (vm : VM) : Prop :=
  ∀ j o, vm.objects.get j = some o → o.marked = false

/-- Every `Struct` child of a live object dereferences successfully. -/
def Closed (vm : VM) : Prop :=
  ∀ a o, vm.objects.get a = some o → ∀ b ∈ Object.children o, Valid vm b

/-- The heap reference graph has no cycle. -/
def Acyclic (vm : VM) : Prop :=
  ∀ i, ¬ Relation.TransGen (childOf vm) i i

/-- Validity is decidable (used to discharge hypotheses on concrete
states). -/
instance decValid (vm : VM) (id : Index) : Decidable (Valid vm id) := by
  unfold Valid
  infer_instance

/-- Erase the mark bit of an entry's occupant. -/
def entryClear : Entry (Object Value) → Entry (Object Value)
  | .Occupied g o => .Occupied g { o with marked := false }
  | .Free n => .Free n

/-- Two VM states that agree on everything except mark bits: stacks,
configuration, arena bookkeeping, occupancy, generations and values all
coincide. -/
def SameShape (vm vm2 : VM) : Prop :=
  vm2.stack = vm.stack ∧
  vm2.max_objects = vm.max_objects ∧
  vm2.gc_on = vm.gc_on ∧
  vm2.objects.generation = vm.objects.generation ∧
  vm2.objects.free_list_head = vm.objects.free_list_head ∧
  vm2.objects.len = vm.objects.len ∧
  vm2.objects.items.map entryClear = vm.objects.items.map entryClear

/-- Occupancy test for a slot entry. -/
def Entry.isOcc : Entry T → Bool
  | .Occupied _ _ => true
  | .Free _ => false

/-- The number of occupied slots of the table. -/
def Arena.occCount (a : Arena T) : Nat :=
  a.items.countP Entry.isOcc

/-- The arena bookkeeping invariant: `len` counts the occupied slots. -/
def lenInv (a : Arena T) : Prop :=
  a.len = a.occCount

/-- The length invariant is decidable. -/
instance decLenInv {T : Type} (a : Arena T) : Decidable (lenInv a) := by
  unfold lenInv
  infer_instance

/-- All identifier/payload pairs of the entries of a slot list, the
first slot being numbered `k`. -/
def entPairs : List (Entry T) → Nat → List (Index × T)
  | [], _ => []
  | .Occupied g v :: rest, k => (⟨k, g⟩, v) :: entPairs rest (k + 1)
  | .Free _ :: rest, k => entPairs rest (k + 1)

/-- All identifier/payload pairs of the arena's occupants. -/
def Arena.pairsList (a : Arena T) : List (Index × T) :=
  entPairs a.items 0

/-- The occupant's generation is no newer than the arena counter. -/
def Entry.genLe (n : Nat) : Entry T → Bool
  | .Occupied g _ => decide (g ≤ n)
  | .Free _ => true

/-- The generation invariant of the slot store: no occupant is tagged
past the arena's generation counter. -/
def genInv (a : Arena T) : Prop :=
  ∀ e ∈ a.items, Entry.genLe a.generation e = true

/-- The generation invariant is decidable. -/
instance decGenInv {T : Type} (a : Arena T) : Decidable (genInv a) := by
  unfold genInv
  infer_instance

/-- A dead identifier: its generation is strictly older than the arena
counter and it no longer dereferences. Once stale, always stale. -/
def Stale (a : Arena (Object Value)) (id : Index) : Prop :=
  id.generation < a.generation ∧ a.get id = none

/-- The VM operations available to clients (the interpreter), for
stating properties over arbitrary operation sequences. -/
inductive VMOp where
  | pushValue (v : Value)
  | pushId (i : Index)
  | popOp
  | gcSet (b : Bool)
  | collect

/-- Run one VM operation. -/
def applyOpF (fuel : Nat) (vm : VM) : VMOp → Option VM
  | .pushValue v => vm.push_valueF fuel v
  | .pushId i => some (vm.push i)
  | .popOp => some (vm.pop).1
  | .gcSet b => vm.gcF fuel b
  | .collect => vm.garbage_collectF fuel

/-- Run a sequence of VM operations. -/
def applyOpsF (fuel : Nat) : VM → List VMOp → Option VM
  | vm, [] => some vm
  | vm, op :: ops => (applyOpF fuel vm op).bind (fun vm2 => applyOpsF fuel vm2 ops)

/-- The shape of the instruction store while loading: the `done`
instructions occupy slots `0..done.length` at generation 0, the
remaining capacity is a sequentially chained free list. -/
def seqArena (cap : Nat) (done : List Instruction) : Arena Instruction :=
  { items := done.map (fun i => Entry.Occupied 0 i) ++
      (List.range' done.length (cap - done.length)).map
        (fun i => if i + 1 = cap then Entry.Free none else Entry.Free (some (i + 1))),
    generation := 0,
    free_list_head := if done.length < cap then some done.length else none,
    len := done.length }

/-- The label markers of an instruction list. -/
def labelNames : List Instruction → List String
  | [] => []
  | .Label s :: rest => s :: labelNames rest
  | _ :: rest => labelNames rest

/-- The pending label after the load loop scans a list, starting from
pending label `p`: a `Label` overwrites the pending label, any other
instruction consumes it. -/
def pendingL : Option String → List Instruction → Option String
  | p, [] => p
  | _, .Label s :: rest => pendingL (some s) rest
  | _, _ :: rest => pendingL none rest

/-- The label bindings the load loop pushes, in chronological order,
scanning with pending label `p` after `k` instructions have already been
inserted: each non-label instruction consumes the pending label, binding
it to the slot the instruction lands in. -/
def labelBindings : Option String → Nat → List Instruction → List (String × Index)
  | _, _, [] => []
  | _, k, .Label s :: rest => labelBindings (some s) k rest
  | some lbl, k, _ :: rest => (lbl, ⟨k, 0⟩) :: labelBindings none (k + 1) rest
  | none, k, _ :: rest => labelBindings none (k + 1) rest

/-! ## Concrete states for witnesses and counterexamples -/

/-- The struct round-trip program of §8 item 3. -/
def c2prog : List Instruction :=
  [.ConstInt 1, .ConstInt 2, .PushStruct 2, .GetStruct 1]

/-- The slot table of `w1vm`. -/
def w1arena : Arena (Object Value) :=
  { items := [.Occupied 0 { marked := false, index := ⟨0, 0⟩, value := .Struct [⟨1, 0⟩] },
              .Occupied 0 { marked := false, index := ⟨1, 0⟩, value := .Int 2 },
              .Occupied 0 { marked := false, index := ⟨2, 0⟩, value := .Int 99 },
              .Free none],
    generation := 0, free_list_head := some 3, len := 3 }

/-- A heap with a root-reachable struct, its integer field, and one
garbage object, rooted at the operand stack. -/
def w1vm : VM :=
  { objects := w1arena, stack := [⟨0, 0⟩], max_objects := 10, gc_on := true }

/-- The slot table of `w9vm`. -/
def w9arena : Arena (Object Value) :=
  { items := [.Occupied 0 { marked := false, index := ⟨0, 0⟩, value := .Int 1 },
              .Occupied 0 { marked := false, index := ⟨1, 0⟩, value := .Int 2 },
              .Free none],
    generation := 0, free_list_head := some 2, len := 2 }

/-- A heap with one rooted object and one garbage object. -/
def w9vm : VM :=
  { objects := w9arena, stack := [⟨0, 0⟩], max_objects := 10, gc_on := true }

/-- The slot table of `c4vm`. -/
def c4arena : Arena (Object Value) :=
  { items := [.Occupied 0 { marked := false, index := ⟨0, 0⟩, value := .Int 5 },
              .Free none],
    generation := 0, free_list_head := some 1, len := 1 }

/-- One live object, empty operand stack. -/
def c4vm : VM :=
  { objects := c4arena, stack := [], max_objects := 10, gc_on := true }

/-- An interpreter whose current frame holds the only reference to
`c4vm`'s object in its innermost locals frame. -/
def c4it : Interpreter :=
  { vm := c4vm,
    instructions := Arena.withCapacity 1,
    labels := [],
    frame := some { instr_ptr := ⟨0, 0⟩, locals_stack := [[⟨0, 0⟩]] } }

/-- The slot table of `w4vm`. -/
def w4arena : Arena (Object Value) :=
  { items := [.Occupied 0 { marked := false, index := ⟨0, 0⟩, value := .Int 6 },
              .Free none],
    generation := 0, free_list_head := some 1, len := 1 }

/-- Like `c4it` with a different payload, for instantiating the
amended root-set theorem. -/
def w4vm : VM :=
  { objects := w4arena, stack := [], max_objects := 10, gc_on := true }

/-- Interpreter around `w4vm`, its object held only by a locals frame. -/
def w4it : Interpreter :=
  { vm := w4vm,
    instructions := Arena.withCapacity 1,
    labels := [],
    frame := some { instr_ptr := ⟨0, 0⟩, locals_stack := [[⟨0, 0⟩]] } }

/-- The slot table of `c5vm`. -/
def c5arena : Arena (Object Value) :=
  { items := [.Occupied 0 { marked := false, index := ⟨0, 0⟩, value := .Int 1 },
              .Occupied 0 { marked := false, index := ⟨1, 0⟩, value := .Int 2 },
              .Free (some 3), .Free none],
    generation := 0, free_list_head := some 2, len := 2 }

/-- A rooted object plus a garbage object, on a freshly chained arena;
the collection frees slot 1 and bumps the generation. -/
def c5vm : VM :=
  { objects := c5arena, stack := [⟨0, 0⟩], max_objects := 10, gc_on := true }

/-- `c5vm` after the collection that frees slot 1. -/
def c5afterGC : VM :=
  (c5vm.garbage_collectF 3).getD (VM.new 0)

/-- A subsequent allocation, which reuses freed slot 1. -/
def c5ops : List VMOp :=
  [.pushValue (.Int 9)]

/-- `c5afterGC` after the reusing allocation. -/
def c5final : VM :=
  (applyOpsF 3 c5afterGC c5ops).getD (VM.new 0)

/-- The slot table of `c6vm`. -/
def c6arena : Arena (Object Value) :=
  { items := [.Occupied 0 { marked := true, index := ⟨0, 0⟩, value := .Struct [⟨1, 0⟩] },
              .Occupied 0 { marked := false, index := ⟨1, 0⟩, value := .Int 7 }],
    generation := 0, free_list_head := none, len := 2 }

/-- An already-marked struct whose child is unmarked. -/
def c6vm : VM :=
  { objects := c6arena, stack := [], max_objects := 10, gc_on := true }

/-- The slot table of `c6cyc`. -/
def c6cycArena : Arena (Object Value) :=
  { items := [.Occupied 0 { marked := false, index := ⟨0, 0⟩, value := .Struct [⟨0, 0⟩] }],
    generation := 0, free_list_head := none, len := 1 }

/-- A heap whose single object is its own `Struct` child — the
reference cycle the instruction set cannot build. -/
def c6cyc : VM :=
  { objects := c6cycArena, stack := [⟨0, 0⟩], max_objects := 10, gc_on := true }

/-- The slot table of `w6vm`. -/
def w6arena : Arena (Object Value) :=
  { items := [.Occupied 0 { marked := false, index := ⟨0, 0⟩, value := .Struct [⟨1, 0⟩] },
              .Occupied 0 { marked := false, index := ⟨1, 0⟩, value := .Int 7 }],
    generation := 0, free_list_head := none, len := 2 }

/-- An unmarked struct with an unmarked integer child, for running the
mark phase. -/
def w6vm : VM :=
  { objects := w6arena, stack := [], max_objects := 10, gc_on := true }

/-- `w6vm` after marking from its struct. -/
def w6res : VM :=
  (markF 3 w6vm ⟨0, 0⟩).getD (VM.new 0)

/-- An interpreter positioned on an instruction, with an empty locals
stack. -/
def w10it : Interpreter :=
  { vm := VM.new 10,
    instructions := (seqArena 1 [.GetLocal 0]),
    labels := [],
    frame := some { instr_ptr := ⟨0, 0⟩, locals_stack := [] } }

/-! ## Arena lemmas -/

theorem Arena.get_entry (a : Arena T) (id : Index) (v : T) :
    a.get id = some v ↔ a.items[id.index]? = some (.Occupied id.generation v) := by
  unfold Arena.get
  cases h : a.items[id.index]? with
  | none => simp
  | some e =>
    cases e with
    | Free n => simp
    | Occupied g w =>
      by_cases hg : g = id.generation
      · subst hg; simp
      · simp [hg, Ne.symm hg]

theorem Arena.get_some_lt (a : Arena T) (id : Index) (v : T)
    (h : a.get id = some v) : id.index < a.items.length := by
  rw [Arena.get_entry] at h
  by_contra hlt
  rw [List.getElem?_eq_none (by omega)] at h
  cases h

theorem list_set_self (l : List α) (i : Nat) (a : α) (h : l[i]? = some a) :
    l.set i a = l := by
  apply List.ext_getElem?
  intro j
  by_cases hj : i = j
  · subst hj
    rw [List.getElem?_set_self (by
      by_contra hlen
      rw [List.getElem?_eq_none (by omega)] at h
      cases h)]
    exact h.symm
  · exact List.getElem?_set_ne hj

theorem Arena.get_set_self (a : Arena T) (id : Index) (o v : T)
    (h : a.get id = some o) : (a.set id v).get id = some v := by
  have hlt := a.get_some_lt id o h
  rw [Arena.get_entry]
  unfold Arena.set
  simpa using List.getElem?_set_self (a := Entry.Occupied id.generation v) hlt

theorem Arena.get_set_other (a : Arena T) (id : Index) (o v : T)
    (h : a.get id = some o) (j : Index) (hj : j ≠ id) :
    (a.set id v).get j = a.get j := by
  by_cases hidx : j.index = id.index
  · have hgen : id.generation ≠ j.generation := by
      intro hg
      apply hj
      cases j; cases id
      simp_all
    rw [Arena.get_entry] at h
    have hlt : id.index < a.items.length := by
      by_contra hlen
      rw [List.getElem?_eq_none (by omega)] at h
      cases h
    unfold Arena.set Arena.get
    rw [hidx, List.getElem?_set_self hlt, h]
    simp [hgen]
  · unfold Arena.set Arena.get
    rw [List.getElem?_set_ne (fun he => hidx he.symm)]

/-! ## SameShape: states agreeing up to mark bits -/

theorem sameShape_refl (vm : VM) : SameShape vm vm := by
  unfold SameShape
  exact ⟨rfl, rfl, rfl, rfl, rfl, rfl, rfl⟩

theorem sameShape_symm {vm vm2 : VM} (h : SameShape vm vm2) : SameShape vm2 vm := by
  obtain ⟨h1, h2, h3, h4, h5, h6, h7⟩ := h
  exact ⟨h1.symm, h2.symm, h3.symm, h4.symm, h5.symm, h6.symm, h7.symm⟩

theorem sameShape_trans {vm vm2 vm3 : VM} (h : SameShape vm vm2)
    (h2 : SameShape vm2 vm3) : SameShape vm vm3 := by
  obtain ⟨a1, a2, a3, a4, a5, a6, a7⟩ := h
  obtain ⟨b1, b2, b3, b4, b5, b6, b7⟩ := h2
  exact ⟨b1.trans a1, b2.trans a2, b3.trans a3, b4.trans a4, b5.trans a5,
    b6.trans a6, b7.trans a7⟩

theorem sameShape_entry {vm vm2 : VM} (h : SameShape vm vm2) (i : Nat) :
    (vm2.objects.items[i]?).map entryClear = (vm.objects.items[i]?).map entryClear := by
  have h7 := h.2.2.2.2.2.2
  rw [← List.getElem?_map entryClear, ← List.getElem?_map entryClear, h7]

theorem sameShape_get {vm vm2 : VM} (h : SameShape vm vm2) (j : Index) :
    (vm2.objects.get j).map (fun o => { o with marked := false }) =
    (vm.objects.get j).map (fun o => { o with marked := false }) := by
  have he := sameShape_entry h j.index
  unfold Arena.get
  cases h1 : vm.objects.items[j.index]? with
  | none =>
    rw [h1] at he
    simp only [Option.map_none'] at he
    rw [Option.map_eq_none'] at he
    rw [he]
  | some e1 =>
    rw [h1] at he
    cases h2 : vm2.objects.items[j.index]? with
    | none => rw [h2] at he; simp at he
    | some e2 =>
      rw [h2] at he
      simp only [Option.map_some', Option.some.injEq] at he
      cases e1 with
      | Free n =>
        cases e2 with
        | Free m => simp
        | Occupied g o => simp [entryClear] at he
      | Occupied g o =>
        cases e2 with
        | Free m => simp [entryClear] at he
        | Occupied g2 o2 =>
          simp only [entryClear, Entry.Occupied.injEq] at he
          obtain ⟨hg, ho⟩ := he
          subst hg
          by_cases hgen : g2 = j.generation
          · simp only [if_pos hgen, Option.map_some']
            rw [ho]
          · simp [if_neg hgen]

theorem childOf_congr {vm vm2 : VM} (h : SameShape vm vm2) (a b : Index) :
    childOf vm2 a b ↔ childOf vm a b := by
  unfold childOf
  have hg := sameShape_get h a
  constructor
  · rintro ⟨o, hget, hb⟩
    rw [hget] at hg
    cases hv : vm.objects.get a with
    | none => rw [hv] at hg; simp at hg
    | some o2 =>
      rw [hv] at hg
      simp only [Option.map_some', Option.some.injEq] at hg
      refine ⟨o2, rfl, ?_⟩
      have hval : o.value = o2.value := by
        have := congrArg Object.value hg
        simpa using this
      show b ∈ o2.value.children
      rw [← hval]
      exact hb
  · rintro ⟨o, hget, hb⟩
    rw [hget] at hg
    cases hv : vm2.objects.get a with
    | none => rw [hv] at hg; simp at hg
    | some o2 =>
      rw [hv] at hg
      simp only [Option.map_some', Option.some.injEq] at hg
      refine ⟨o2, rfl, ?_⟩
      have hval : o2.value = o.value := by
        have := congrArg Object.value hg
        simpa using this
      show b ∈ o2.value.children
      rw [hval]
      exact hb

theorem reachF_congr {vm vm2 : VM} (h : SameShape vm vm2) (a b : Index) :
    ReachF vm2 a b ↔ ReachF vm a b := by
  unfold ReachF
  constructor
  · intro hr
    induction hr with
    | refl => exact .refl
    | tail _ hstep ih => exact .tail ih ((childOf_congr h _ _).1 hstep)
  · intro hr
    induction hr with
    | refl => exact .refl
    | tail _ hstep ih => exact .tail ih ((childOf_congr h _ _).2 hstep)

/-! ## The mark phase characterized -/

theorem markedIn_set_true (vm : VM) (id : Index) (o : Object Value)
    (h : vm.objects.get id = some o) (j : Index) :
    markedIn { vm with objects := vm.objects.set id { o with marked := true } } j ↔
      (markedIn vm j ∨ j = id) := by
  show (∃ o2, (vm.objects.set id { o with marked := true }).get j = some o2 ∧
      o2.marked = true) ↔
    ((∃ o2, vm.objects.get j = some o2 ∧ o2.marked = true) ∨ j = id)
  by_cases hj : j = id
  · subst hj
    rw [Arena.get_set_self vm.objects j o _ h]
    constructor
    · intro _
      exact Or.inr rfl
    · intro _
      exact ⟨{ o with marked := true }, rfl, rfl⟩
  · rw [Arena.get_set_other vm.objects id o _ h j hj]
    constructor
    · intro hm
      exact Or.inl hm
    · rintro (hm | rfl)
      · exact hm
      · exact absurd rfl hj

theorem sameShape_set_true (vm : VM) (id : Index) (o : Object Value)
    (h : vm.objects.get id = some o) :
    SameShape vm { vm with objects := vm.objects.set id { o with marked := true } } := by
  refine ⟨rfl, rfl, rfl, rfl, rfl, rfl, ?_⟩
  unfold Arena.set
  show (vm.objects.items.set id.index _).map entryClear = vm.objects.items.map entryClear
  rw [List.map_set]
  rw [Arena.get_entry] at h
  have : (vm.objects.items.map entryClear)[id.index]? =
      some (entryClear (.Occupied id.generation { o with marked := true })) := by
    rw [List.getElem?_map, h]
    simp [entryClear]
  exact list_set_self _ _ _ this

theorem markFold_spec (g : VM → Index → Option VM)
    (hg : ∀ vm c vm2, g vm c = some vm2 →
      SameShape vm vm2 ∧ ∀ j, (markedIn vm2 j ↔ markedIn vm j ∨ ReachF vm c j)) :
    ∀ (cs : List Index) (vm vm2 : VM), markFold g vm cs = some vm2 →
      SameShape vm vm2 ∧
        ∀ j, (markedIn vm2 j ↔ markedIn vm j ∨ ∃ c ∈ cs, ReachF vm c j) := by
  intro cs
  induction cs with
  | nil =>
    intro vm vm2 h
    unfold markFold at h
    cases h
    exact ⟨sameShape_refl vm, fun j => by simp⟩
  | cons c cs ih =>
    intro vm vm2 h
    unfold markFold at h
    cases hc : g vm c with
    | none => rw [hc] at h; cases h
    | some vm1 =>
      rw [hc] at h
      obtain ⟨hs1, hm1⟩ := hg vm c vm1 hc
      obtain ⟨hs2, hm2⟩ := ih vm1 vm2 h
      refine ⟨sameShape_trans hs1 hs2, fun j => ?_⟩
      rw [hm2 j, hm1 j]
      have hre : ∀ (x y : Index), ReachF vm1 x y ↔ ReachF vm x y :=
        fun x y => reachF_congr hs1 x y
      simp only [List.mem_cons]
      constructor
      · rintro ((hm | hr) | ⟨x, hx, hr⟩)
        · left; exact hm
        · right; exact ⟨c, Or.inl rfl, hr⟩
        · right; exact ⟨x, Or.inr hx, (hre x j).1 hr⟩
      · rintro (hm | ⟨x, (rfl | hx), hr⟩)
        · left; left; exact hm
        · left; right; exact hr
        · right; exact ⟨x, hx, (hre x j).2 hr⟩

theorem reachF_head (vm : VM) (id : Index) (o : Object Value)
    (h : vm.objects.get id = some o) (j : Index) :
    ReachF vm id j ↔ (j = id ∨ ∃ c ∈ Object.children o, ReachF vm c j) := by
  constructor
  · intro hr
    rcases Relation.ReflTransGen.cases_head hr with heq | ⟨c, hstep, hrest⟩
    · left; exact heq.symm
    · right
      obtain ⟨o2, ho2, hc⟩ := hstep
      rw [h] at ho2
      cases ho2
      exact ⟨c, hc, hrest⟩
  · rintro (rfl | ⟨c, hc, hr⟩)
    · exact Relation.ReflTransGen.refl
    · exact Relation.ReflTransGen.head ⟨o, h, hc⟩ hr

theorem markF_spec : ∀ (fuel : Nat) (vm : VM) (id : Index) (vm2 : VM),
    markF fuel vm id = some vm2 →
    SameShape vm vm2 ∧ ∀ j, (markedIn vm2 j ↔ markedIn vm j ∨ ReachF vm id j) := by
  intro fuel
  induction fuel with
  | zero => intro vm id vm2 h; cases h
  | succ n ih =>
    intro vm id vm2 h
    unfold markF at h
    cases hget : vm.objects.get id with
    | none => rw [hget] at h; cases h
    | some o =>
      rw [hget] at h
      obtain ⟨hsf, hmf⟩ := markFold_spec (markF n) ih o.children _ vm2 h
      have hshape0 : SameShape vm
          { vm with objects := vm.objects.set id { o with marked := true } } :=
        sameShape_set_true vm id o hget
      refine ⟨sameShape_trans hshape0 hsf, fun j => ?_⟩
      rw [hmf j, markedIn_set_true vm id o hget j]
      have hre : ∀ (x y : Index),
          ReachF { vm with objects := vm.objects.set id { o with marked := true } } x y ↔
          ReachF vm x y := fun x y => reachF_congr hshape0 x y
      rw [reachF_head vm id o hget j]
      constructor
      · rintro ((hm | rfl) | ⟨c, hc, hr⟩)
        · left; exact hm
        · right; left; rfl
        · right; right; exact ⟨c, hc, (hre c j).1 hr⟩
      · rintro (hm | (rfl | ⟨c, hc, hr⟩))
        · left; left; exact hm
        · left; right; rfl
        · right; exact ⟨c, hc, (hre c j).2 hr⟩

/-! ## Fuel monotonicity and shape-invariance of the mark phase -/

theorem markFold_congr (g1 g2 : VM → Index → Option VM)
    (h : ∀ vm c vm2, g1 vm c = some vm2 → g2 vm c = some vm2) :
    ∀ (cs : List Index) (vm vm2 : VM),
      markFold g1 vm cs = some vm2 → markFold g2 vm cs = some vm2 := by
  intro cs
  induction cs with
  | nil => intro vm vm2 hf; exact hf
  | cons c cs ih =>
    intro vm vm2 hf
    unfold markFold at hf ⊢
    cases hc : g1 vm c with
    | none => rw [hc] at hf; cases hf
    | some vm1 =>
      rw [hc] at hf
      rw [h vm c vm1 hc]
      exact ih vm1 vm2 hf

theorem markF_mono_succ : ∀ (fuel : Nat) (vm : VM) (id : Index) (vm2 : VM),
    markF fuel vm id = some vm2 → markF (fuel + 1) vm id = some vm2 := by
  intro fuel
  induction fuel with
  | zero => intro vm id vm2 h; cases h
  | succ n ih =>
    intro vm id vm2 h
    unfold markF at h ⊢
    cases hget : vm.objects.get id with
    | none => rw [hget] at h; cases h
    | some o =>
      rw [hget] at h
      exact markFold_congr (markF n) (markF (n + 1)) ih o.children _ vm2 h

theorem markF_mono {f1 f2 : Nat} (h : f1 ≤ f2) :
    ∀ (vm : VM) (id : Index) (vm2 : VM),
      markF f1 vm id = some vm2 → markF f2 vm id = some vm2 := by
  induction h with
  | refl => intro vm id vm2 h; exact h
  | step _ ih =>
    intro vm id vm2 h
    exact markF_mono_succ _ vm id vm2 (ih vm id vm2 h)

theorem markFold_shape_isSome (g : VM → Index → Option VM)
    (hshape : ∀ vm vm2 c, SameShape vm vm2 → (g vm c).isSome → (g vm2 c).isSome)
    (hspec : ∀ vm c vm2, g vm c = some vm2 → SameShape vm vm2) :
    ∀ (cs : List Index) (vm1 vm2 : VM), SameShape vm1 vm2 →
      (markFold g vm1 cs).isSome → (markFold g vm2 cs).isSome := by
  intro cs
  induction cs with
  | nil => intro vm1 vm2 _ _; simp [markFold]
  | cons c cs ih =>
    intro vm1 vm2 hs h
    unfold markFold at h ⊢
    cases hc : g vm1 c with
    | none => rw [hc] at h; cases h
    | some r1 =>
      rw [hc] at h
      have h2 := hshape vm1 vm2 c hs (by rw [hc]; rfl)
      obtain ⟨r2, hr2⟩ := Option.isSome_iff_exists.1 h2
      rw [hr2]
      have hsr : SameShape r1 r2 :=
        sameShape_trans (sameShape_trans (sameShape_symm (hspec vm1 c r1 hc)) hs)
          (hspec vm2 c r2 hr2)
      exact ih r1 r2 hsr h

theorem markF_shape_isSome : ∀ (fuel : Nat) (vm1 vm2 : VM) (id : Index),
    SameShape vm1 vm2 → (markF fuel vm1 id).isSome → (markF fuel vm2 id).isSome := by
  intro fuel
  induction fuel with
  | zero => intro vm1 vm2 id _ h; cases h
  | succ n ih =>
    intro vm1 vm2 id hs h
    rw [Option.isSome_iff_exists] at h
    obtain ⟨r1, hr1⟩ := h
    unfold markF at hr1 ⊢
    cases hget1 : vm1.objects.get id with
    | none => rw [hget1] at hr1; cases hr1
    | some o1 =>
      rw [hget1] at hr1
      have hg := sameShape_get hs id
      rw [hget1] at hg
      cases hget2 : vm2.objects.get id with
      | none => rw [hget2] at hg; simp at hg
      | some o2 =>
        rw [hget2] at hg
        simp only [Option.map_some', Option.some.injEq] at hg
        have hval : o2.value = o1.value := by
          have := congrArg Object.value hg
          simpa using this
        have hch : o2.children = o1.children := by
          unfold Object.children
          rw [hval]
        have hsU : SameShape
            { vm1 with objects := vm1.objects.set id { o1 with marked := true } }
            { vm2 with objects := vm2.objects.set id { o2 with marked := true } } := by
          have s1 := sameShape_set_true vm1 id o1 hget1
          have s2 := sameShape_set_true vm2 id o2 hget2
          exact sameShape_trans (sameShape_trans (sameShape_symm s1) hs) s2
        have hr1b : markFold (markF n)
            { vm1 with objects := vm1.objects.set id { o1 with marked := true } }
            o1.children = some r1 := hr1
        show (markFold (markF n)
            { vm2 with objects := vm2.objects.set id { o2 with marked := true } }
            o2.children).isSome = true
        rw [hch]
        exact markFold_shape_isSome (markF n)
          (fun vm vm2x c hsx hx => ih vm vm2x c hsx hx)
          (fun vm c vm2x hx => (markF_spec n vm c vm2x hx).1)
          o1.children _ _ hsU (by rw [hr1b]; rfl)

/-! ## Termination of the mark phase on acyclic closed heaps -/

theorem markFold_term (vm : VM) :
    ∀ (cs : List Index), (∀ c ∈ cs, ∃ fuel, (markF fuel vm c).isSome) →
      ∀ vmx, SameShape vm vmx → ∃ fuel, (markFold (markF fuel) vmx cs).isSome := by
  intro cs
  induction cs with
  | nil => intro _ vmx _; exact ⟨0, by simp [markFold]⟩
  | cons c cs ih =>
    intro h vmx hs
    obtain ⟨f1, hf1⟩ := h c (List.mem_cons_self c cs)
    obtain ⟨r1, hr1⟩ := Option.isSome_iff_exists.1
      (markF_shape_isSome f1 vm vmx c hs hf1)
    have hsr1 : SameShape vm r1 :=
      sameShape_trans hs ((markF_spec f1 vmx c r1 hr1).1)
    obtain ⟨f2, hf2⟩ := ih (fun x hx => h x (List.mem_cons_of_mem c hx)) r1 hsr1
    obtain ⟨r2, hr2⟩ := Option.isSome_iff_exists.1 hf2
    refine ⟨max f1 f2, ?_⟩
    have hm1 : markF (max f1 f2) vmx c = some r1 :=
      markF_mono (le_max_left f1 f2) vmx c r1 hr1
    have hm2 : markFold (markF (max f1 f2)) r1 cs = some r2 :=
      markFold_congr (markF f2) (markF (max f1 f2))
        (fun vmy cy vmy2 hy => markF_mono (le_max_right f1 f2) vmy cy vmy2 hy)
        cs r1 r2 hr2
    unfold markFold
    rw [hm1]
    show (markFold (markF (max f1 f2)) r1 cs).isSome = true
    rw [hm2]
    rfl

theorem valid_index_lt (vm : VM) (id : Index) (h : Valid vm id) :
    id.index < vm.objects.items.length := by
  obtain ⟨v, hv⟩ := Option.isSome_iff_exists.1 h
  exact vm.objects.get_some_lt id v hv

theorem valid_finite (vm : VM) : Finite { i : Index // Valid vm i } := by
  apply Finite.of_injective
    (fun i => (⟨i.1.index, valid_index_lt vm i.1 i.2⟩ : Fin vm.objects.items.length))
  intro i1 i2 h
  simp only [Fin.mk.injEq] at h
  obtain ⟨v1, hv1⟩ := Option.isSome_iff_exists.1 i1.2
  obtain ⟨v2, hv2⟩ := Option.isSome_iff_exists.1 i2.2
  rw [Arena.get_entry] at hv1 hv2
  rw [h] at hv1
  rw [hv2] at hv1
  apply Subtype.ext
  cases hi1 : i1.1
  cases hi2 : i2.1
  rw [hi1] at h hv1
  rw [hi2] at h hv1
  simp only [Option.some.injEq, Entry.Occupied.injEq] at hv1
  simp only at h
  simp [h, hv1.1.symm]

theorem markF_terminates (vm : VM) (hclosed : Closed vm) (hacyc : Acyclic vm) :
    ∀ id, Valid vm id → ∃ fuel, (markF fuel vm id).isSome := by
  haveI hfin : Finite { i : Index // Valid vm i } := valid_finite vm
  let r : { i : Index // Valid vm i } → { i : Index // Valid vm i } → Prop :=
    fun b a => childOf vm a.1 b.1
  haveI hirr : IsIrrefl { i : Index // Valid vm i } (Relation.TransGen r) := by
    constructor
    intro x hx
    have hlift : Relation.TransGen (Function.swap (childOf vm)) x.1 x.1 :=
      Relation.TransGen.lift Subtype.val (fun a b hab => hab) hx
    exact hacyc x.1 (Relation.transGen_swap.1 hlift)
  have hwf : WellFounded (Relation.TransGen r) :=
    Finite.wellFounded_of_trans_of_irrefl (Relation.TransGen r)
  have hwfr : WellFounded r :=
    Subrelation.wf (fun hab => Relation.TransGen.single hab) hwf
  have main : ∀ a : { i : Index // Valid vm i }, ∃ fuel, (markF fuel vm a.1).isSome := by
    intro a
    induction a using WellFounded.induction hwfr with
    | _ a iha =>
      obtain ⟨o, ho⟩ := Option.isSome_iff_exists.1 a.2
      have hchild : ∀ c ∈ o.children, ∃ fuel, (markF fuel vm c).isSome := by
        intro c hc
        have hcv : Valid vm c := hclosed a.1 o ho c hc
        exact iha ⟨c, hcv⟩ ⟨o, ho, hc⟩
      obtain ⟨fuel, hfold⟩ := markFold_term vm o.children hchild
        { vm with objects := vm.objects.set a.1 { o with marked := true } }
        (sameShape_set_true vm a.1 o ho)
      refine ⟨fuel + 1, ?_⟩
      unfold markF
      rw [ho]
      exact hfold
  intro id hid
  exact main ⟨id, hid⟩

theorem mark_all_terminates (vm : VM) (hstack : ∀ r ∈ vm.stack, Valid vm r)
    (hclosed : Closed vm) (hacyc : Acyclic vm) :
    ∃ fuel, (mark_allF fuel vm).isSome := by
  obtain ⟨fuel, h⟩ := markFold_term vm vm.stack
    (fun rt hr => markF_terminates vm hclosed hacyc rt (hstack rt hr))
    vm (sameShape_refl vm)
  exact ⟨fuel, h⟩

/-! ## The sweep phase characterized -/

theorem getElem?_some_lt {α : Type} {l : List α} {i : Nat} {x : α}
    (h : l[i]? = some x) : i < l.length := by
  by_contra hc
  rw [List.getElem?_eq_none (by omega)] at h
  cases h

theorem mem_of_getElem?_some {α : Type} {l : List α} {i : Nat} {x : α}
    (h : l[i]? = some x) : x ∈ l := by
  have hlt := getElem?_some_lt h
  have : l[i] = x := by
    have := List.getElem?_eq_getElem hlt
    rw [this] at h
    exact Option.some.inj h
  exact this ▸ List.getElem_mem hlt

theorem Arena.get_eq_of_items {T : Type} (a b : Arena T) (id : Index)
    (h : a.items[id.index]? = b.items[id.index]?) : a.get id = b.get id := by
  unfold Arena.get
  rw [h]

theorem sweepStep_items_other (a : Arena (Object Value)) (i j : Nat) (hj : j ≠ i) :
    (sweepStep a i).items[j]? = a.items[j]? := by
  cases h : a.items[i]? with
  | none => simp only [sweepStep, h]
  | some e =>
    cases e with
    | Free n => simp only [sweepStep, h]
    | Occupied g o =>
      simp only [sweepStep, h]
      by_cases hm : o.marked
      · rw [if_pos hm]
        exact List.getElem?_set_ne (fun he => hj he.symm)
      · rw [if_neg hm]
        exact List.getElem?_set_ne (fun he => hj he.symm)

theorem sweepSlots_untouched : ∀ (slots : List Nat) (a : Arena (Object Value)) (j : Nat),
    j ∉ slots → ((slots.foldl sweepStep a)).items[j]? = a.items[j]? := by
  intro slots
  induction slots with
  | nil => intro a j _; rfl
  | cons i rest ih =>
    intro a j hj
    rw [List.foldl_cons]
    rw [ih (sweepStep a i) j (fun hmem => hj (List.mem_cons_of_mem i hmem))]
    exact sweepStep_items_other a i j
      (fun he => hj (he ▸ List.mem_cons_self i rest))

theorem sweepStep_get_self (a : Arena (Object Value)) (id : Index) :
    (sweepStep a id.index).get id =
      (a.get id).bind (fun o => if o.marked then some { o with marked := false } else none) := by
  cases he : a.items[id.index]? with
  | none =>
    have hnone : a.get id = none := by
      unfold Arena.get
      rw [he]
    simp only [sweepStep, he, hnone]
    rfl
  | some e =>
    cases e with
    | Free n =>
      have hnone : a.get id = none := by
        unfold Arena.get
        rw [he]
      simp only [sweepStep, he, hnone]
      rfl
    | Occupied g o =>
      have hlt : id.index < a.items.length := getElem?_some_lt he
      have hget : a.get id = if g = id.generation then some o else none := by
        unfold Arena.get
        rw [he]
      simp only [sweepStep, he]
      by_cases hm : o.marked
      · rw [if_pos hm, hget]
        have hset : (a.items.set id.index
            (Entry.Occupied g { o with marked := false }))[id.index]? =
            some (Entry.Occupied g { o with marked := false }) :=
          List.getElem?_set_self hlt
        show Arena.get _ id = _
        simp only [Arena.get, hset]
        by_cases hg : g = id.generation
        · simp [hg, hm]
        · simp [hg]
      · rw [if_neg hm, hget]
        have hset : (a.items.set id.index (Entry.Free a.free_list_head))[id.index]? =
            some (Entry.Free a.free_list_head) :=
          List.getElem?_set_self hlt
        show Arena.get _ id = _
        simp only [Arena.get, hset]
        by_cases hg : g = id.generation
        · simp [hg, hm]
        · simp [hg]

theorem sweepSlots_get : ∀ (slots : List Nat) (a : Arena (Object Value)),
    slots.Nodup → ∀ id : Index,
    (slots.foldl sweepStep a).get id =
      if id.index ∈ slots then
        (a.get id).bind (fun o => if o.marked then some { o with marked := false } else none)
      else a.get id := by
  intro slots
  induction slots with
  | nil => intro a _ id; simp
  | cons i rest ih =>
    intro a hnd id
    rw [List.nodup_cons] at hnd
    rw [List.foldl_cons]
    by_cases hidx : id.index = i
    · have hnotin : id.index ∉ rest := by rw [hidx]; exact hnd.1
      rw [ih (sweepStep a i) hnd.2 id, if_neg hnotin]
      rw [if_pos (by rw [hidx]; exact List.mem_cons_self i rest)]
      rw [← hidx]
      exact sweepStep_get_self a id
    · have hstep : (sweepStep a i).get id = a.get id :=
        Arena.get_eq_of_items _ a id (sweepStep_items_other a i id.index hidx)
      rw [ih (sweepStep a i) hnd.2 id, hstep]
      by_cases hmem : id.index ∈ rest
      · rw [if_pos hmem, if_pos (List.mem_cons_of_mem i hmem)]
      · rw [if_neg hmem, if_neg (by
          intro hc
          rcases List.mem_cons.1 hc with hc | hc
          · exact hidx hc
          · exact hmem hc)]

theorem sweepArena_get (a : Arena (Object Value)) (id : Index) :
    (sweepArena a).get id =
      (a.get id).bind (fun o => if o.marked then some { o with marked := false } else none) := by
  unfold sweepArena
  rw [sweepSlots_get (List.range a.items.length) a (List.nodup_range _) id]
  by_cases h : id.index ∈ List.range a.items.length
  · rw [if_pos h]
  · rw [if_neg h]
    have hnone : a.get id = none := by
      rw [List.mem_range] at h
      unfold Arena.get
      rw [List.getElem?_eq_none (by omega)]
    rw [hnone]
    rfl

/-! ## Sweep bookkeeping: live count, generations -/

theorem countP_set_eq {α : Type} (l : List α) (p : α → Bool) :
    ∀ (i : Nat) (e e2 : α), l[i]? = some e →
    (l.set i e2).countP p + (if p e then 1 else 0) =
      l.countP p + (if p e2 then 1 else 0) := by
  induction l with
  | nil => intro i e e2 h; cases h
  | cons x xs ih =>
    intro i e e2 h
    cases i with
    | zero =>
      simp only [List.getElem?_cons_zero, Option.some.injEq] at h
      subst h
      simp only [List.set_cons_zero, List.countP_cons]
      omega
    | succ n =>
      simp only [List.getElem?_cons_succ] at h
      have hx := ih n e e2 h
      simp only [List.set_cons_succ, List.countP_cons]
      omega

theorem sweepStep_lenInv (a : Arena (Object Value)) (i : Nat) (h : lenInv a) :
    lenInv (sweepStep a i) := by
  unfold lenInv Arena.occCount at h ⊢
  cases he : a.items[i]? with
  | none => simp only [sweepStep, he]; exact h
  | some e =>
    cases e with
    | Free n => simp only [sweepStep, he]; exact h
    | Occupied g o =>
      simp only [sweepStep, he]
      by_cases hm : o.marked
      · rw [if_pos hm]
        have hc := countP_set_eq a.items Entry.isOcc i _
          (Entry.Occupied g { o with marked := false }) he
        simp [Entry.isOcc] at hc
        show a.len = (a.items.set i (Entry.Occupied g { o with marked := false })).countP
          Entry.isOcc
        omega
      · rw [if_neg hm]
        have hc := countP_set_eq a.items Entry.isOcc i _
          (Entry.Free a.free_list_head) he
        simp [Entry.isOcc] at hc
        show a.len - 1 = (a.items.set i (Entry.Free a.free_list_head)).countP Entry.isOcc
        omega

theorem sweepSlots_lenInv : ∀ (slots : List Nat) (a : Arena (Object Value)),
    lenInv a → lenInv (slots.foldl sweepStep a) := by
  intro slots
  induction slots with
  | nil => intro a h; exact h
  | cons i rest ih =>
    intro a h
    rw [List.foldl_cons]
    exact ih (sweepStep a i) (sweepStep_lenInv a i h)

theorem sweepStep_gen_mono (a : Arena (Object Value)) (i : Nat) :
    a.generation ≤ (sweepStep a i).generation := by
  cases he : a.items[i]? with
  | none => simp only [sweepStep, he]; exact le_refl _
  | some e =>
    cases e with
    | Free n => simp only [sweepStep, he]; exact le_refl _
    | Occupied g o =>
      simp only [sweepStep, he]
      by_cases hm : o.marked
      · rw [if_pos hm]
      · rw [if_neg hm]
        exact Nat.le_succ _

theorem sweepSlots_gen_mono : ∀ (slots : List Nat) (a : Arena (Object Value)),
    a.generation ≤ (slots.foldl sweepStep a).generation := by
  intro slots
  induction slots with
  | nil => intro a; exact le_refl _
  | cons i rest ih =>
    intro a
    rw [List.foldl_cons]
    exact (sweepStep_gen_mono a i).trans (ih (sweepStep a i))

theorem genLe_mono {T : Type} {m n : Nat} (h : m ≤ n) (e : Entry T)
    (he : Entry.genLe m e = true) : Entry.genLe n e = true := by
  cases e with
  | Free nf => rfl
  | Occupied g v =>
    simp only [Entry.genLe, decide_eq_true_eq] at he ⊢
    omega

theorem sweepStep_genInv (a : Arena (Object Value)) (i : Nat) (h : genInv a) :
    genInv (sweepStep a i) := by
  unfold genInv at h ⊢
  cases he : a.items[i]? with
  | none => simp only [sweepStep, he]; exact h
  | some e =>
    cases e with
    | Free n => simp only [sweepStep, he]; exact h
    | Occupied g o =>
      simp only [sweepStep, he]
      by_cases hm : o.marked
      · rw [if_pos hm]
        intro e2 hmem
        rcases List.mem_or_eq_of_mem_set hmem with h1 | h1
        · exact h e2 h1
        · subst h1
          have := h _ (mem_of_getElem?_some he)
          simpa [Entry.genLe] using this
      · rw [if_neg hm]
        intro e2 hmem
        rcases List.mem_or_eq_of_mem_set hmem with h1 | h1
        · exact genLe_mono (Nat.le_succ _) e2 (h e2 h1)
        · subst h1
          rfl

theorem sweepSlots_genInv : ∀ (slots : List Nat) (a : Arena (Object Value)),
    genInv a → genInv (slots.foldl sweepStep a) := by
  intro slots
  induction slots with
  | nil => intro a h; exact h
  | cons i rest ih =>
    intro a h
    rw [List.foldl_cons]
    exact ih (sweepStep a i) (sweepStep_genInv a i h)

theorem sweepSlots_stale : ∀ (slots : List Nat) (a : Arena (Object Value))
    (id : Index) (o : Object Value), slots.Nodup → genInv a →
    a.get id = some o → (slots.foldl sweepStep a).get id = none →
    id.generation < (slots.foldl sweepStep a).generation := by
  intro slots
  induction slots with
  | nil =>
    intro a id o _ _ hget hnone
    rw [List.foldl_nil] at hnone
    rw [hget] at hnone
    cases hnone
  | cons i rest ih =>
    intro a id o hnd hinv hget hnone
    rw [List.nodup_cons] at hnd
    rw [List.foldl_cons] at hnone ⊢
    by_cases hidx : id.index = i
    · have hentry : a.items[id.index]? = some (.Occupied id.generation o) :=
        (Arena.get_entry a id o).1 hget
      by_cases hm : o.marked
      · exfalso
        have hstep : (sweepStep a i).get id = some { o with marked := false } := by
          rw [← hidx, sweepStep_get_self a id, hget]
          simp [hm]
        have huntouched : (rest.foldl sweepStep (sweepStep a i)).get id =
            (sweepStep a i).get id :=
          Arena.get_eq_of_items _ _ id
            (sweepSlots_untouched rest (sweepStep a i) id.index
              (by rw [hidx]; exact hnd.1))
        rw [huntouched, hstep] at hnone
        cases hnone
      · have hgen : id.generation ≤ a.generation := by
          have := hinv _ (mem_of_getElem?_some hentry)
          simpa [Entry.genLe] using this
        have hstepgen : (sweepStep a i).generation = a.generation + 1 := by
          rw [← hidx]
          simp only [sweepStep, hentry]
          rw [if_neg hm]
        have hmono := sweepSlots_gen_mono rest (sweepStep a i)
        omega
    · have hget2 : (sweepStep a i).get id = some o := by
        rw [Arena.get_eq_of_items (sweepStep a i) a id
          (sweepStep_items_other a i id.index hidx)]
        exact hget
      exact ih (sweepStep a i) id o hnd.2 (sweepStep_genInv a i hinv) hget2 hnone

/-! ## The occupant pairs list: membership, nodup, length -/

theorem entPairs_mem {T : Type} : ∀ (l : List (Entry T)) (k : Nat) (id : Index) (v : T),
    (id, v) ∈ entPairs l k ↔
      (k ≤ id.index ∧ l[id.index - k]? = some (.Occupied id.generation v)) := by
  intro l
  induction l with
  | nil => intro k id v; simp [entPairs]
  | cons e rest ih =>
    intro k id v
    cases e with
    | Free n =>
      rw [show entPairs (Entry.Free n :: rest) k = entPairs rest (k + 1) from rfl]
      rw [ih (k + 1) id v]
      constructor
      · rintro ⟨hk, hg⟩
        refine ⟨by omega, ?_⟩
        have hsub : id.index - k = (id.index - (k + 1)) + 1 := by omega
        rw [hsub, List.getElem?_cons_succ]
        exact hg
      · rintro ⟨hk, hg⟩
        by_cases heq : id.index = k
        · rw [heq, Nat.sub_self, List.getElem?_cons_zero] at hg
          cases hg
        · have hk1 : k + 1 ≤ id.index := by omega
          refine ⟨hk1, ?_⟩
          have hsub : id.index - k = (id.index - (k + 1)) + 1 := by omega
          rw [hsub, List.getElem?_cons_succ] at hg
          exact hg
    | Occupied g w =>
      rw [show entPairs (Entry.Occupied g w :: rest) k =
        (⟨k, g⟩, w) :: entPairs rest (k + 1) from rfl]
      rw [List.mem_cons, ih (k + 1) id v]
      constructor
      · rintro (heq | ⟨hk, hg⟩)
        · rw [Prod.ext_iff] at heq
          obtain ⟨h1, h2⟩ := heq
          simp only at h2
          subst h1
          subst h2
          exact ⟨le_refl _, by rw [Nat.sub_self, List.getElem?_cons_zero]⟩
        · by_cases heq : id.index = k
          · omega
          · refine ⟨by omega, ?_⟩
            have hsub : id.index - k = (id.index - (k + 1)) + 1 := by omega
            rw [hsub, List.getElem?_cons_succ]
            exact hg
      · rintro ⟨hk, hg⟩
        by_cases heq : id.index = k
        · left
          rw [heq, Nat.sub_self, List.getElem?_cons_zero] at hg
          simp only [Option.some.injEq, Entry.Occupied.injEq] at hg
          obtain ⟨hg1, hg2⟩ := hg
          have hid : id = ⟨k, g⟩ := by
            cases id
            simp only at heq hg1
            simp [heq, hg1.symm]
          rw [hid, hg2]
        · right
          refine ⟨by omega, ?_⟩
          have hsub : id.index - k = (id.index - (k + 1)) + 1 := by omega
          rw [hsub, List.getElem?_cons_succ] at hg
          exact hg

theorem Arena.get_iff_pairs {T : Type} (a : Arena T) (id : Index) (v : T) :
    a.get id = some v ↔ (id, v) ∈ a.pairsList := by
  rw [Arena.get_entry]
  unfold Arena.pairsList
  rw [entPairs_mem a.items 0 id v]
  simp

theorem entPairs_index_ge {T : Type} (l : List (Entry T)) (k : Nat)
    (p : Index × T) (h : p ∈ entPairs l k) : k ≤ p.1.index := by
  have hp : (p.1, p.2) ∈ entPairs l k := by
    cases p
    exact h
  exact ((entPairs_mem l k p.1 p.2).1 hp).1

theorem entPairs_index_nodup {T : Type} :
    ∀ (l : List (Entry T)) (k : Nat),
      ((entPairs l k).map (fun p => p.1.index)).Nodup := by
  intro l
  induction l with
  | nil => intro k; simp [entPairs]
  | cons e rest ih =>
    intro k
    cases e with
    | Free n => exact ih (k + 1)
    | Occupied g w =>
      rw [show entPairs (Entry.Occupied g w :: rest) k =
        (⟨k, g⟩, w) :: entPairs rest (k + 1) from rfl]
      rw [List.map_cons, List.nodup_cons]
      refine ⟨?_, ih (k + 1)⟩
      intro hmem
      obtain ⟨p, hp, hpk⟩ := List.mem_map.1 hmem
      have := entPairs_index_ge rest (k + 1) p hp
      simp only at hpk
      omega

theorem entPairs_length {T : Type} :
    ∀ (l : List (Entry T)) (k : Nat),
      (entPairs l k).length = l.countP Entry.isOcc := by
  intro l
  induction l with
  | nil => intro k; rfl
  | cons e rest ih =>
    intro k
    cases e with
    | Free n =>
      rw [show entPairs (Entry.Free n :: rest) k = entPairs rest (k + 1) from rfl]
      rw [List.countP_cons]
      simp [Entry.isOcc, ih (k + 1)]
    | Occupied g w =>
      rw [show entPairs (Entry.Occupied g w :: rest) k =
        (⟨k, g⟩, w) :: entPairs rest (k + 1) from rfl]
      rw [List.length_cons, List.countP_cons]
      simp [Entry.isOcc, ih (k + 1)]

theorem arena_len_ncard (a : Arena (Object Value)) (h : lenInv a) :
    a.len = Set.ncard { i : Index | (a.get i).isSome } := by
  have hset : { i : Index | (a.get i).isSome } =
      ((a.pairsList.map Prod.fst).toFinset : Finset Index) := by
    ext i
    simp only [Set.mem_setOf_eq, Finset.coe_sort_coe, List.coe_toFinset,
      Set.mem_setOf_eq, List.mem_map, Option.isSome_iff_exists]
    constructor
    · rintro ⟨v, hv⟩
      exact ⟨(i, v), (Arena.get_iff_pairs a i v).1 hv, rfl⟩
    · rintro ⟨p, hp, rfl⟩
      refine ⟨p.2, (Arena.get_iff_pairs a p.1 p.2).2 ?_⟩
      cases p
      exact hp
  have hnodup : (a.pairsList.map Prod.fst).Nodup := by
    have hidx : (a.pairsList.map (fun p => p.1.index)).Nodup :=
      entPairs_index_nodup a.items 0
    have heq : (a.pairsList.map (fun p => p.1.index)) =
        (a.pairsList.map Prod.fst).map Index.index := by
      rw [List.map_map]
      rfl
    rw [heq] at hidx
    exact hidx.of_map Index.index
  rw [hset, Set.ncard_coe_Finset, List.toFinset_card_of_nodup hnodup,
    List.length_map]
  unfold Arena.pairsList
  rw [entPairs_length a.items 0]
  exact h

/-! ## Reachable identifiers are valid -/

theorem reach_valid (vm : VM) (hclosed : Closed vm) :
    ∀ a b, Valid vm a → ReachF vm a b → Valid vm b := by
  intro a b ha hr
  induction hr with
  | refl => exact ha
  | tail _ hstep _ =>
    obtain ⟨o, ho, hb⟩ := hstep
    exact hclosed _ o ho _ hb

theorem reachStack_valid (vm : VM) (hstack : ∀ r ∈ vm.stack, Valid vm r)
    (hclosed : Closed vm) : ∀ j, ReachStack vm j → Valid vm j := by
  rintro j ⟨r, hr, hreach⟩
  exact reach_valid vm hclosed r j (hstack r hr) hreach

/-! ## The collection pass characterized -/

theorem occCount_congr (l l2 : List (Entry (Object Value)))
    (h : l2.map entryClear = l.map entryClear) :
    l2.countP Entry.isOcc = l.countP Entry.isOcc := by
  have h1 : ∀ (m : List (Entry (Object Value))),
      m.countP Entry.isOcc = (m.map entryClear).countP Entry.isOcc := by
    intro m
    rw [List.countP_map]
    congr 1
    funext e
    cases e <;> rfl
  rw [h1 l2, h, ← h1 l]

theorem genInv_congr (a a2 : Arena (Object Value)) (hgen : a2.generation = a.generation)
    (hmap : a2.items.map entryClear = a.items.map entryClear) (h : genInv a) :
    genInv a2 := by
  intro e2 hmem
  have hmem2 : entryClear e2 ∈ a.items.map entryClear := by
    rw [← hmap]
    exact List.mem_map_of_mem entryClear hmem
  obtain ⟨e1, he1, heq⟩ := List.mem_map.1 hmem2
  have h1 := h e1 he1
  rw [hgen]
  cases e2 with
  | Free n => rfl
  | Occupied g o =>
    cases e1 with
    | Free m => simp [entryClear] at heq
    | Occupied g1 o1 =>
      simp only [entryClear, Entry.Occupied.injEq] at heq
      simp only [Entry.genLe, decide_eq_true_eq] at h1 ⊢
      omega

theorem object_clear_self (o : Object Value) (h : o.marked = false) :
    ({ o with marked := false } : Object Value) = o := by
  cases o
  simp_all

theorem collect_spec (vm : VM)
    (hstack : ∀ r ∈ vm.stack, Valid vm r) (hclosed : Closed vm) (hacyc : Acyclic vm)
    (hunm : AllUnmarked vm) (hgc : vm.gc_on = true) :
    ∃ fuel vm2, vm.garbage_collectF fuel = some vm2 ∧
      vm2.stack = vm.stack ∧ vm2.max_objects = vm.max_objects ∧ vm2.gc_on = vm.gc_on ∧
      (∀ j o, vm2.objects.get j = some o ↔ (ReachStack vm j ∧ vm.objects.get j = some o)) ∧
      AllUnmarked vm2 ∧
      (lenInv vm.objects → lenInv vm2.objects) ∧
      (lenInv vm.objects → vm2.objects.len = Set.ncard { j : Index | ReachStack vm j }) := by
  obtain ⟨fuel, hsome⟩ := mark_all_terminates vm hstack hclosed hacyc
  obtain ⟨vmM, hM⟩ := Option.isSome_iff_exists.1 hsome
  obtain ⟨hshape, hmarked⟩ :=
    markFold_spec (markF fuel) (markF_spec fuel) vm.stack vm vmM hM
  have hmarkedIff : ∀ j, markedIn vmM j ↔ ReachStack vm j := by
    intro j
    rw [hmarked j]
    constructor
    · rintro (⟨o, ho, hm⟩ | hr)
      · rw [hunm j o ho] at hm
        cases hm
      · exact hr
    · intro hr
      right
      exact hr
  have hrun : vm.garbage_collectF fuel = some vmM.sweep := by
    simp [VM.garbage_collectF, hgc, hM]
  have hstack2 : (vmM.sweep).stack = vm.stack := hshape.1
  have hmax2 : (vmM.sweep).max_objects = vm.max_objects := hshape.2.1
  have hgc2 : (vmM.sweep).gc_on = vm.gc_on := hshape.2.2.1
  have hgetchar : ∀ j o, (vmM.sweep).objects.get j = some o ↔
      (ReachStack vm j ∧ vm.objects.get j = some o) := by
    intro j o
    show (sweepArena vmM.objects).get j = some o ↔ _
    rw [sweepArena_get vmM.objects j]
    have hmapj := sameShape_get hshape j
    constructor
    · intro h
      cases hMj : vmM.objects.get j with
      | none => rw [hMj] at h; cases h
      | some oM =>
        rw [hMj] at h
        replace h : (if oM.marked = true then some { oM with marked := false }
            else none) = some o := h
        by_cases hm : oM.marked
        · rw [if_pos hm] at h
          have ho : o = { oM with marked := false } := (Option.some.inj h).symm
          have hreach : ReachStack vm j := (hmarkedIff j).1 ⟨oM, hMj, hm⟩
          rw [hMj] at hmapj
          cases hv : vm.objects.get j with
          | none => rw [hv] at hmapj; simp at hmapj
          | some o0 =>
            rw [hv] at hmapj
            simp only [Option.map_some', Option.some.injEq] at hmapj
            have h0 : o0.marked = false := hunm j o0 hv
            have hoo : o = o0 := by
              rw [ho, hmapj, object_clear_self o0 h0]
            refine ⟨hreach, ?_⟩
            rw [hoo]
        · rw [if_neg hm] at h
          cases h
    · rintro ⟨hreach, hv⟩
      have h0 : o.marked = false := hunm j o hv
      obtain ⟨oM, hMj, hm⟩ := (hmarkedIff j).2 hreach
      rw [hMj]
      show (if oM.marked = true then some { oM with marked := false } else none) = some o
      rw [if_pos hm]
      rw [hMj, hv] at hmapj
      simp only [Option.map_some', Option.some.injEq] at hmapj
      rw [hmapj, object_clear_self o h0]
  have hunm2 : AllUnmarked vmM.sweep := by
    intro j o h
    replace h : (sweepArena vmM.objects).get j = some o := h
    rw [sweepArena_get] at h
    cases hMj : vmM.objects.get j with
    | none => rw [hMj] at h; cases h
    | some oM =>
      rw [hMj] at h
      replace h : (if oM.marked = true then some { oM with marked := false }
          else none) = some o := h
      by_cases hm : oM.marked
      · rw [if_pos hm] at h
        have := Option.some.inj h
        rw [← this]
      · rw [if_neg hm] at h
        cases h
  have hlen2 : lenInv vm.objects → lenInv (vmM.sweep).objects := by
    intro hl
    have hlM : lenInv vmM.objects := by
      unfold lenInv Arena.occCount at hl ⊢
      rw [hshape.2.2.2.2.2.1]
      rw [occCount_congr vm.objects.items vmM.objects.items hshape.2.2.2.2.2.2]
      exact hl
    exact sweepSlots_lenInv _ vmM.objects hlM
  have hcard : lenInv vm.objects →
      (vmM.sweep).objects.len = Set.ncard { j : Index | ReachStack vm j } := by
    intro hl
    have hl2 := hlen2 hl
    have hval : { i : Index | ((vmM.sweep).objects.get i).isSome } =
        { j : Index | ReachStack vm j } := by
      ext i
      simp only [Set.mem_setOf_eq, Option.isSome_iff_exists]
      constructor
      · rintro ⟨o, ho⟩
        exact ((hgetchar i o).1 ho).1
      · intro hr
        have hv : Valid vm i := reachStack_valid vm hstack hclosed i hr
        obtain ⟨o, ho⟩ := Option.isSome_iff_exists.1 hv
        exact ⟨o, (hgetchar i o).2 ⟨hr, ho⟩⟩
    rw [arena_len_ncard (vmM.sweep).objects hl2, hval]
  exact ⟨fuel, vmM.sweep, hrun, hstack2, hmax2, hgc2, hgetchar, hunm2, hlen2, hcard⟩

/-! ## Discharging hypotheses on concrete states -/

theorem closed_of_pairs (vm : VM)
    (h : ∀ p ∈ vm.objects.pairsList, ∀ b ∈ Object.children p.2,
      (vm.objects.get b).isSome) : Closed vm := by
  intro a o ha b hb
  exact h (a, o) ((Arena.get_iff_pairs _ a o).1 ha) b hb

theorem allUnmarked_of_pairs (vm : VM)
    (h : ∀ p ∈ vm.objects.pairsList, p.2.marked = false) : AllUnmarked vm := by
  intro j o hj
  exact h (j, o) ((Arena.get_iff_pairs _ j o).1 hj)

theorem childOf_pairs (vm : VM) (a b : Index) (h : childOf vm a b) :
    ∃ p ∈ vm.objects.pairsList, p.1 = a ∧ b ∈ Object.children p.2 := by
  obtain ⟨o, ho, hb⟩ := h
  exact ⟨(a, o), (Arena.get_iff_pairs _ a o).1 ho, rfl, hb⟩

theorem acyclic_of_rank (vm : VM) (f : Index → Nat)
    (h : ∀ a b, childOf vm a b → f b < f a) : Acyclic vm := by
  intro i hcyc
  have hlt : ∀ x y, Relation.TransGen (childOf vm) x y → f y < f x := by
    intro x y ht
    induction ht with
    | single hs => exact h _ _ hs
    | tail _ hs ih => exact lt_trans (h _ _ hs) ih
  exact absurd (hlt i i hcyc) (lt_irrefl _)

theorem acyclic_of_rank_pairs (vm : VM) (f : Index → Nat)
    (h : ∀ p ∈ vm.objects.pairsList, ∀ b ∈ Object.children p.2, f b < f p.1) :
    Acyclic vm := by
  apply acyclic_of_rank vm f
  intro a b hab
  obtain ⟨p, hp, hpa, hb⟩ := childOf_pairs vm a b hab
  rw [← hpa]
  exact h p hp b hb

/-! ## Claim theorems: the collector -/

/-- C1: on a VM state with an acyclic heap reference graph (well-formed:
valid roots, closed children, clear mark bits, GC enabled, consistent
live count), invoking collection leaves in the heap exactly the objects
transitively reachable from the operand stack via `Struct` children —
unchanged — removes every unreachable object in the same pass, leaves
the live count equal to the size of the reachable transitive closure,
and clears the mark bit of every survivor. -/
theorem gc_collect_exact_reachable (vm : VM)
    (hstack : ∀ r ∈ vm.stack, Valid vm r) (hclosed : Closed vm) (hacyc : Acyclic vm)
    (hunm : AllUnmarked vm) (hgc : vm.gc_on = true) (hlen : lenInv vm.objects) :
    ∃ fuel vm2, vm.garbage_collectF fuel = some vm2 ∧
      (∀ j o, vm2.objects.get j = some o ↔ (ReachStack vm j ∧ vm.objects.get j = some o)) ∧
      vm2.objects.len = Set.ncard { j : Index | ReachStack vm j } ∧
      (∀ j, ¬ ReachStack vm j → vm2.objects.get j = none) ∧
      (∀ j o, vm2.objects.get j = some o → o.marked = false) := by
  obtain ⟨fuel, vm2, hrun, _, _, _, hchar, hunm2, _, hcard⟩ :=
    collect_spec vm hstack hclosed hacyc hunm hgc
  refine ⟨fuel, vm2, hrun, hchar, hcard hlen, ?_, fun j o h => hunm2 j o h⟩
  intro j hnr
  cases hg : vm2.objects.get j with
  | none => rfl
  | some o => exact absurd ((hchar j o).1 hg).1 hnr

/-- Witness for C1 at a concrete heap: a root struct, its integer field
and one garbage object. -/
theorem gc_collect_exact_reachable_witness :
    ∃ fuel vm2, w1vm.garbage_collectF fuel = some vm2 ∧
      (∀ j o, vm2.objects.get j = some o ↔ (ReachStack w1vm j ∧ w1vm.objects.get j = some o)) ∧
      vm2.objects.len = Set.ncard { j : Index | ReachStack w1vm j } ∧
      (∀ j, ¬ ReachStack w1vm j → vm2.objects.get j = none) ∧
      (∀ j o, vm2.objects.get j = some o → o.marked = false) :=
  gc_collect_exact_reachable w1vm (by decide)
    (closed_of_pairs w1vm (by decide))
    (acyclic_of_rank_pairs w1vm (fun i => if i = ⟨0, 0⟩ then 1 else 0) (by decide))
    (allUnmarked_of_pairs w1vm (by decide)) rfl (by decide)

/-- Reachability in the original heap transfers to the collected heap
along root-reachable prefixes. -/
theorem reach_transfer (vm vm2 : VM)
    (hchar : ∀ j o, vm2.objects.get j = some o ↔
      (ReachStack vm j ∧ vm.objects.get j = some o)) :
    ∀ a j, ReachStack vm a → ReachF vm a j → ReachF vm2 a j := by
  intro a j ha hr
  induction hr with
  | refl => exact Relation.ReflTransGen.refl
  | tail hab hbc ih =>
    rename_i b c
    have hb : ReachStack vm b := by
      obtain ⟨r, hrm, hra⟩ := ha
      exact ⟨r, hrm, hra.trans hab⟩
    obtain ⟨o, hgetb, hc⟩ := hbc
    have hget2 : vm2.objects.get b = some o := (hchar b o).2 ⟨hb, hgetb⟩
    exact ih.tail ⟨o, hget2, hc⟩

/-- C9: collection is idempotent — after one collection, a second
collection (no allocation or stack mutation in between) keeps the live
set identical and removes nothing reachable from the operand stack. -/
theorem collect_idempotent (vm : VM)
    (hstack : ∀ r ∈ vm.stack, Valid vm r) (hclosed : Closed vm) (hacyc : Acyclic vm)
    (hunm : AllUnmarked vm) (hgc : vm.gc_on = true) (hlen : lenInv vm.objects) :
    ∃ fuel vm2 fuel2 vm3, vm.garbage_collectF fuel = some vm2 ∧
      vm2.garbage_collectF fuel2 = some vm3 ∧
      (∀ j, Valid vm3 j ↔ Valid vm2 j) ∧
      (∀ j, ReachStack vm2 j → Valid vm3 j) := by
  obtain ⟨fuel, vm2, hrun, hstk, _, hgcf, hchar, hunm2, hlen2, _⟩ :=
    collect_spec vm hstack hclosed hacyc hunm hgc
  have hstack2 : ∀ r ∈ vm2.stack, Valid vm2 r := by
    intro r hr
    rw [hstk] at hr
    obtain ⟨o, ho⟩ := Option.isSome_iff_exists.1 (hstack r hr)
    have : vm2.objects.get r = some o :=
      (hchar r o).2 ⟨⟨r, hr, Relation.ReflTransGen.refl⟩, ho⟩
    rw [Valid, this]
    rfl
  have hclosed2 : Closed vm2 := by
    intro a o ha b hb
    obtain ⟨hra, hva⟩ := (hchar a o).1 ha
    have hrb : ReachStack vm b := by
      obtain ⟨r, hrm, hpath⟩ := hra
      exact ⟨r, hrm, hpath.tail ⟨o, hva, hb⟩⟩
    obtain ⟨ob, hob⟩ := Option.isSome_iff_exists.1 (hclosed a o hva b hb)
    have : vm2.objects.get b = some ob := (hchar b ob).2 ⟨hrb, hob⟩
    rw [Valid, this]
    rfl
  have hacyc2 : Acyclic vm2 := by
    intro i hcyc
    apply hacyc i
    refine Relation.TransGen.mono ?_ hcyc
    rintro x y ⟨o, hget2, hb⟩
    exact ⟨o, ((hchar x o).1 hget2).2, hb⟩
  have hgc2 : vm2.gc_on = true := by rw [hgcf, hgc]
  obtain ⟨fuel2, vm3, hrun2, _, _, _, hchar2, _, _, _⟩ :=
    collect_spec vm2 hstack2 hclosed2 hacyc2 hunm2 hgc2
  have hvalid2_reach : ∀ j, Valid vm2 j → ReachStack vm2 j := by
    intro j hv
    obtain ⟨o, ho⟩ := Option.isSome_iff_exists.1 hv
    obtain ⟨⟨r, hrm, hpath⟩, _⟩ := (hchar j o).1 ho
    refine ⟨r, by rw [hstk]; exact hrm, ?_⟩
    exact reach_transfer vm vm2 hchar r j ⟨r, hrm, Relation.ReflTransGen.refl⟩ hpath
  refine ⟨fuel, vm2, fuel2, vm3, hrun, hrun2, ?_, ?_⟩
  · intro j
    constructor
    · intro hv
      obtain ⟨o, ho⟩ := Option.isSome_iff_exists.1 hv
      have := ((hchar2 j o).1 ho).2
      rw [Valid, this]
      rfl
    · intro hv
      obtain ⟨o, ho⟩ := Option.isSome_iff_exists.1 hv
      have : vm3.objects.get j = some o := (hchar2 j o).2 ⟨hvalid2_reach j hv, ho⟩
      rw [Valid, this]
      rfl
  · intro j hr
    have hv2 : Valid vm2 j := reachStack_valid vm2 hstack2 hclosed2 j hr
    obtain ⟨o, ho⟩ := Option.isSome_iff_exists.1 hv2
    have : vm3.objects.get j = some o := (hchar2 j o).2 ⟨hr, ho⟩
    rw [Valid, this]
    rfl

/-- Witness for C9 at a concrete heap with one rooted object and one
garbage object. -/
theorem collect_idempotent_witness :
    ∃ fuel vm2 fuel2 vm3, w9vm.garbage_collectF fuel = some vm2 ∧
      vm2.garbage_collectF fuel2 = some vm3 ∧
      (∀ j, Valid vm3 j ↔ Valid vm2 j) ∧
      (∀ j, ReachStack vm2 j → Valid vm3 j) :=
  collect_idempotent w9vm (by decide)
    (closed_of_pairs w9vm (by decide))
    (acyclic_of_rank_pairs w9vm (fun _ => 0) (by decide))
    (allUnmarked_of_pairs w9vm (by decide)) rfl (by decide)

/-- C4 (amended): only the operand stack is the root set of a
collection — an object that is not reachable from the operand stack is
removed even when its identifier is held in the current frame's locals
stack. -/
theorem gc_roots_exclude_locals (it : Interpreter) (id : Index)
    (hstack : ∀ r ∈ it.vm.stack, Valid it.vm r) (hclosed : Closed it.vm)
    (hacyc : Acyclic it.vm) (hunm : AllUnmarked it.vm) (hgc : it.vm.gc_on = true)
    (hlocals : ∃ f, it.frame = some f ∧ ∃ loc ∈ f.locals_stack, id ∈ loc)
    (hvalid : Valid it.vm id) (hnr : ¬ ReachStack it.vm id) :
    ∃ fuel vm2, it.vm.garbage_collectF fuel = some vm2 ∧
      vm2.objects.get id = none := by
  obtain ⟨fuel, vm2, hrun, _, _, _, hchar, _, _, _⟩ :=
    collect_spec it.vm hstack hclosed hacyc hunm hgc
  refine ⟨fuel, vm2, hrun, ?_⟩
  cases hg : vm2.objects.get id with
  | none => rfl
  | some o => exact absurd ((hchar id o).1 hg).1 hnr

/-- Witness for the amended C4: a locals-held object with empty operand
stack does not survive the collection. -/
theorem gc_roots_exclude_locals_witness :
    ∃ fuel vm2, w4it.vm.garbage_collectF fuel = some vm2 ∧
      vm2.objects.get ⟨0, 0⟩ = none :=
  gc_roots_exclude_locals w4it ⟨0, 0⟩ (by decide)
    (closed_of_pairs w4it.vm (by decide))
    (acyclic_of_rank_pairs w4it.vm (fun _ => 0) (by decide))
    (allUnmarked_of_pairs w4it.vm (by decide)) rfl
    ⟨{ instr_ptr := ⟨0, 0⟩, locals_stack := [[⟨0, 0⟩]] }, rfl,
      [⟨0, 0⟩], by decide, by decide⟩
    (by decide)
    (by rintro ⟨r, hr, _⟩; simp [w4it, w4vm] at hr)

/-- Counterexample to C4 as stated: `c4it`'s frame holds the only
reference to the live object in its locals stack, yet the collection
removes it — the locals stacks are not part of the root set. -/
theorem locals_only_object_collected :
    (∃ f, c4it.frame = some f ∧ ∃ loc ∈ f.locals_stack, (⟨0, 0⟩ : Index) ∈ loc) ∧
    Valid c4it.vm ⟨0, 0⟩ ∧
    (c4it.vm.garbage_collectF 2).map (fun vm2 => (vm2.objects.get ⟨0, 0⟩).isSome) =
      some false := by
  refine ⟨⟨{ instr_ptr := ⟨0, 0⟩, locals_stack := [[⟨0, 0⟩]] }, rfl,
    [⟨0, 0⟩], by decide, by decide⟩, by decide, by decide⟩

/-- C10: executing `GetLocal i` when the current frame's locals stack is
empty fails with a stack underflow and leaves the interpreter — operand
stack and heap included — unchanged. -/
theorem getlocal_empty_locals_underflow (it : Interpreter) (f : Frame) (i fuel : Nat)
    (hf : it.frame = some f) (hl : f.locals_stack = []) :
    it.executeF fuel (.GetLocal i) = some (it, .error .StackUnderflow) := by
  simp [Interpreter.executeF, hf, hl]

/-- Witness for C10 at a concrete interpreter. -/
theorem getlocal_empty_locals_underflow_witness :
    w10it.executeF 5 (.GetLocal 0) = some (w10it, .error .StackUnderflow) :=
  getlocal_empty_locals_underflow w10it { instr_ptr := ⟨0, 0⟩, locals_stack := [] }
    0 5 rfl rfl

/-! ## Claim theorems: the mark phase (C6) -/

/-- C6 (amended): the mark phase never skips an already-marked object —
whenever `mark` returns, everything reachable from its argument has been
marked, mark bits notwithstanding — and it tracks no visited
identifiers, so on a heap whose object is its own `Struct` child the
recursion never returns, whatever the fuel. -/
theorem mark_no_skip_and_cycle_divergence :
    (∀ (vm : VM) (fuel : Nat) (a b : Index) (vm2 : VM), markF fuel vm a = some vm2 →
      ReachF vm a b → markedIn vm2 b) ∧
    (∀ (vm : VM) (id : Index) (o : Object Value), vm.objects.get id = some o →
      o.value = .Struct [id] → ∀ fuel, markF fuel vm id = none) := by
  constructor
  · intro vm fuel a b vm2 hm hr
    exact ((markF_spec fuel vm a vm2 hm).2 b).2 (Or.inr hr)
  · intro vm id o hget hval fuel
    induction fuel generalizing vm o with
    | zero => rfl
    | succ n ih =>
      simp only [markF, hget]
      have hch : o.children = [id] := by
        unfold Object.children
        rw [hval]
        rfl
      rw [hch]
      unfold markFold
      have hm : markF n { vm with objects := vm.objects.set id { o with marked := true } }
          id = none := by
        apply ih
        · exact Arena.get_set_self vm.objects id o _ hget
        · exact hval
      rw [hm]

/-- Witness for the amended C6: marking `w6vm`'s struct marks its child,
and marking the self-referential heap `c6cyc` exhausts any fuel. -/
theorem mark_no_skip_and_cycle_divergence_witness :
    markedIn w6res ⟨1, 0⟩ ∧ markF 10 c6cyc ⟨0, 0⟩ = none :=
  ⟨mark_no_skip_and_cycle_divergence.1 w6vm 3 ⟨0, 0⟩ ⟨1, 0⟩ w6res (by decide)
      (Relation.ReflTransGen.single
        ⟨{ marked := false, index := ⟨0, 0⟩, value := .Struct [⟨1, 0⟩] },
          by decide, by decide⟩),
   mark_no_skip_and_cycle_divergence.2 c6cyc ⟨0, 0⟩
      { marked := false, index := ⟨0, 0⟩, value := .Struct [⟨0, 0⟩] }
      (by decide) (by decide) 10⟩

/-- Counterexample to C6 as stated: marking the already-marked struct of
`c6vm` still re-traverses its children — the unmarked child ends up
marked, where the claim says it would be skipped. -/
theorem mark_retraverses_marked_children :
    (c6vm.objects.get ⟨0, 0⟩).map (fun o => o.marked) = some true ∧
    (c6vm.objects.get ⟨1, 0⟩).map (fun o => o.marked) = some false ∧
    (markF 3 c6vm ⟨0, 0⟩).map
      (fun vm2 => (vm2.objects.get ⟨1, 0⟩).map (fun o => o.marked)) =
      some (some true) := by
  decide

/-! ## Insert characterized (for C5 and C8) -/

theorem Arena.occupy_spec {T : Type} (a : Arena T) (i : Nat) (f : Index → T)
    (idx : Index) (a2 : Arena T) (h : a.occupy i f = some (idx, a2)) :
    idx = ⟨i, a.generation⟩ ∧ a2.generation = a.generation ∧
    (∀ j : Index, a2.get j = if j = idx then some (f idx) else a.get j) ∧
    a.get idx = none := by
  unfold Arena.occupy at h
  cases he : a.items[i]? with
  | none => rw [he] at h; cases h
  | some e =>
    cases e with
    | Occupied g v => rw [he] at h; cases h
    | Free next =>
      rw [he] at h
      have hpair := Option.some.inj h
      have hidx : (⟨i, a.generation⟩ : Index) = idx := congrArg Prod.fst hpair
      have ha2 : a2 = { a with
          items := a.items.set i (.Occupied a.generation (f ⟨i, a.generation⟩)),
          free_list_head := next, len := a.len + 1 } := (congrArg Prod.snd hpair).symm
      subst hidx
      have hlt : i < a.items.length := getElem?_some_lt he
      refine ⟨rfl, by rw [ha2], ?_, ?_⟩
      · intro j
        by_cases hj : j = ⟨i, a.generation⟩
        · subst hj
          rw [if_pos rfl, ha2]
          show Arena.get _ _ = _
          unfold Arena.get
          simp [List.getElem?_set_self hlt]
        · rw [if_neg hj, ha2]
          by_cases hji : j.index = i
          · have hgen : j.generation ≠ a.generation := by
              intro hg
              apply hj
              cases j
              simp only at hji hg
              simp [hji, hg]
            show Arena.get _ _ = _
            unfold Arena.get
            rw [hji, List.getElem?_set_self hlt, he]
            simp [Ne.symm hgen]
          · show Arena.get _ _ = _
            unfold Arena.get
            rw [List.getElem?_set_ne (fun hx => hji hx.symm)]
      · unfold Arena.get
        rw [he]

theorem entries_reserve_free {T : Type} (a : Arena T) (n : Nat) (k : Nat)
    (e : Entry T)
    (h : ((List.range' (a.items.length) n).map
      (fun i => if i + 1 = a.items.length + n then Entry.Free a.free_list_head
                else Entry.Free (some (i + 1))))[k]? = some e) :
    ∃ m, e = Entry.Free m := by
  rw [List.getElem?_map] at h
  cases hx : (List.range' (a.items.length) n)[k]? with
  | none => rw [hx] at h; cases h
  | some i =>
    rw [hx] at h
    simp only [Option.map_some', Option.some.injEq] at h
    by_cases hc : i + 1 = a.items.length + n
    · rw [if_pos hc] at h
      exact ⟨a.free_list_head, h.symm⟩
    · rw [if_neg hc] at h
      exact ⟨some (i + 1), h.symm⟩

theorem Arena.reserve_get {T : Type} (a : Arena T) (n : Nat) (id : Index) :
    (a.reserve n).get id = a.get id := by
  have hres : (a.reserve n).items = a.items ++ (List.range' (a.items.length) n).map
      (fun i => if i + 1 = a.items.length + n then Entry.Free a.free_list_head
                else Entry.Free (some (i + 1))) := rfl
  unfold Arena.get
  rw [hres, List.getElem?_append]
  by_cases h : id.index < a.items.length
  · rw [if_pos h]
  · rw [if_neg h]
    rw [List.getElem?_eq_none (l := a.items) (by omega)]
    cases hx : ((List.range' (a.items.length) n).map
        (fun i => if i + 1 = a.items.length + n then Entry.Free a.free_list_head
                  else Entry.Free (some (i + 1))))[id.index - a.items.length]? with
    | none => rfl
    | some e =>
      obtain ⟨m, rfl⟩ := entries_reserve_free a n _ e hx
      rfl

theorem Arena.insertWith_spec {T : Type} (a : Arena T) (f : Index → T)
    (idx : Index) (a2 : Arena T) (h : a.insertWith f = some (idx, a2)) :
    idx.generation = a.generation ∧ a2.generation = a.generation ∧
    (∀ j : Index, a2.get j = if j = idx then some (f idx) else a.get j) := by
  unfold Arena.insertWith at h
  cases hh : a.free_list_head with
  | some i =>
    rw [hh] at h
    obtain ⟨hidx, hgen, hget, _⟩ := Arena.occupy_spec a i f idx a2 h
    refine ⟨by rw [hidx], hgen, hget⟩
  | none =>
    rw [hh] at h
    replace h : (match (a.reserve a.items.length).free_list_head with
        | some i => (a.reserve a.items.length).occupy i f
        | none => none) = some (idx, a2) := h
    cases hh2 : (a.reserve a.items.length).free_list_head with
    | none => rw [hh2] at h; cases h
    | some i =>
      rw [hh2] at h
      obtain ⟨hidx, hgen, hget, _⟩ :=
        Arena.occupy_spec (a.reserve a.items.length) i f idx a2 h
      refine ⟨by rw [hidx]; rfl, by rw [hgen]; rfl, ?_⟩
      intro j
      rw [hget j, Arena.reserve_get a a.items.length j]

/-! ## Claim theorems: the mark bit outside collection (C8) -/

theorem get_none_of_all_free {T : Type} (a : Arena T)
    (h : ∀ e ∈ a.items, Entry.isOcc e = false) (id : Index) : a.get id = none := by
  unfold Arena.get
  cases hx : a.items[id.index]? with
  | none => rfl
  | some e =>
    cases e with
    | Free n => rfl
    | Occupied g v =>
      have := h _ (mem_of_getElem?_some hx)
      cases this

theorem sweep_unmarked (vmx : VM) : AllUnmarked vmx.sweep := by
  intro j o h
  replace h : (sweepArena vmx.objects).get j = some o := h
  rw [sweepArena_get] at h
  cases hMj : vmx.objects.get j with
  | none => rw [hMj] at h; cases h
  | some oM =>
    rw [hMj] at h
    replace h : (if oM.marked = true then some { oM with marked := false }
        else none) = some o := h
    by_cases hm : oM.marked
    · rw [if_pos hm] at h
      have := Option.some.inj h
      rw [← this]
    · rw [if_neg hm] at h
      cases h

theorem garbage_collectF_unmarked (vm : VM) (fuel : Nat) (vm2 : VM)
    (hunm : AllUnmarked vm) (h : vm.garbage_collectF fuel = some vm2) :
    AllUnmarked vm2 := by
  unfold VM.garbage_collectF at h
  by_cases hgc : vm.gc_on
  · rw [if_pos hgc] at h
    cases hM : mark_allF fuel vm with
    | none => rw [hM] at h; cases h
    | some vmM =>
      rw [hM] at h
      simp only [Option.map_some', Option.some.injEq] at h
      rw [← h]
      exact sweep_unmarked vmM
  · rw [if_neg hgc] at h
    rw [← Option.some.inj h]
    exact hunm

theorem push_valueF_unmarked (vm : VM) (v : Value) (fuel : Nat) (vm2 : VM)
    (hunm : AllUnmarked vm) (h : vm.push_valueF fuel v = some vm2) :
    AllUnmarked vm2 := by
  unfold VM.push_valueF at h
  cases hins : vm.objects.insertWith (fun idx => Object.new idx v) with
  | none => rw [hins] at h; cases h
  | some p =>
    obtain ⟨idx, arena⟩ := p
    rw [hins] at h
    obtain ⟨_, _, hget⟩ := Arena.insertWith_spec _ _ idx arena hins
    have hunmMid : AllUnmarked { vm with objects := arena, stack := idx :: vm.stack } := by
      intro j o hj
      replace hj : arena.get j = some o := hj
      rw [hget j] at hj
      by_cases hji : j = idx
      · rw [if_pos hji] at hj
        have hoe : o = Object.new idx v := (Option.some.inj hj).symm
        rw [hoe]
        rfl
      · rw [if_neg hji] at hj
        exact hunm j o hj
    replace h : (if arena.len > vm.max_objects then
        ({ vm with objects := arena, stack := idx :: vm.stack } : VM).garbage_collectF fuel
        else some { vm with objects := arena, stack := idx :: vm.stack }) = some vm2 := h
    split at h
    · exact garbage_collectF_unmarked _ fuel vm2 hunmMid h
    · rw [← Option.some.inj h]
      exact hunmMid

/-- C8: the mark bit is false outside every collection cycle — a fresh
VM has no marked object, allocation creates objects unmarked and
preserves unmarked-ness (also through a triggered collection), the stack
operations and the GC toggle preserve it, and collection itself returns
with every retained object's mark bit cleared. -/
theorem mark_bit_false_outside_collection :
    (∀ n, AllUnmarked (VM.new n)) ∧
    (∀ (vm : VM) (v : Value) (fuel : Nat) (vm2 : VM), AllUnmarked vm →
      vm.push_valueF fuel v = some vm2 → AllUnmarked vm2) ∧
    (∀ (vm : VM) (i : Index), AllUnmarked vm → AllUnmarked (vm.push i)) ∧
    (∀ vm : VM, AllUnmarked vm → AllUnmarked (vm.pop).1) ∧
    (∀ (vm : VM) (b : Bool) (fuel : Nat) (vm2 : VM), AllUnmarked vm →
      vm.gcF fuel b = some vm2 → AllUnmarked vm2) ∧
    (∀ (vm : VM) (fuel : Nat) (vm2 : VM), AllUnmarked vm →
      vm.garbage_collectF fuel = some vm2 → AllUnmarked vm2) := by
  refine ⟨?_, push_valueF_unmarked, ?_, ?_, ?_, garbage_collectF_unmarked⟩
  · intro n j o h
    replace h : (Arena.new : Arena (Object Value)).get j = some o := h
    rw [get_none_of_all_free (Arena.new : Arena (Object Value)) (by decide) j] at h
    cases h
  · intro vm i hunm j o h
    exact hunm j o h
  · intro vm hunm j o h
    cases hs : vm.stack with
    | nil =>
      apply hunm j o
      rw [← h]
      congr 1
      unfold VM.pop
      rw [hs]
    | cons x rest =>
      apply hunm j o
      rw [← h]
      congr 1
      unfold VM.pop
      rw [hs]
  · intro vm b fuel vm2 hunm h
    replace h : (if ({ vm with gc_on := b } : VM).gc_on ∧
        ({ vm with gc_on := b } : VM).objects.len >
          ({ vm with gc_on := b } : VM).max_objects
        then ({ vm with gc_on := b } : VM).garbage_collectF fuel
        else some { vm with gc_on := b }) = some vm2 := h
    split at h
    · exact garbage_collectF_unmarked { vm with gc_on := b } fuel vm2
        (fun j o hj => hunm j o hj) h
    · rw [← Option.some.inj h]
      exact fun j o hj => hunm j o hj

/-- Witness for C8: the fresh VM is unmarked and a push keeps it so. -/
theorem mark_bit_false_outside_collection_witness :
    AllUnmarked (VM.new 3) ∧ AllUnmarked ((VM.new 3).push ⟨0, 0⟩) :=
  ⟨mark_bit_false_outside_collection.1 3,
   mark_bit_false_outside_collection.2.2.1 (VM.new 3) ⟨0, 0⟩
     (allUnmarked_of_pairs (VM.new 3) (by decide))⟩

/-! ## Claim theorems: stale identifiers (C5) -/

theorem stale_sameShape {vmA vmB : VM} {id : Index} (h : SameShape vmA vmB)
    (hs : Stale vmA.objects id) : Stale vmB.objects id := by
  obtain ⟨h1, h2⟩ := hs
  refine ⟨by rw [h.2.2.2.1]; exact h1, ?_⟩
  have hm := sameShape_get h id
  rw [h2] at hm
  simp only [Option.map_none'] at hm
  exact Option.map_eq_none'.1 hm

theorem stale_sweep (vmx : VM) (id : Index) (h : Stale vmx.objects id) :
    Stale (vmx.sweep).objects id := by
  obtain ⟨h1, h2⟩ := h
  refine ⟨lt_of_lt_of_le h1 (sweepSlots_gen_mono _ _), ?_⟩
  show (sweepArena vmx.objects).get id = none
  rw [sweepArena_get, h2]
  rfl

theorem stale_insertWith (a : Arena (Object Value)) (f : Index → Object Value)
    (idx : Index) (a2 : Arena (Object Value))
    (hins : a.insertWith f = some (idx, a2)) (id : Index) (h : Stale a id) :
    Stale a2 id := by
  obtain ⟨hgenIdx, hgenA2, hget⟩ := Arena.insertWith_spec a f idx a2 hins
  obtain ⟨h1, h2⟩ := h
  refine ⟨by rw [hgenA2]; exact h1, ?_⟩
  rw [hget id]
  have hne : id ≠ idx := by
    intro he
    rw [he, hgenIdx] at h1
    exact lt_irrefl _ h1
  rw [if_neg hne]
  exact h2

theorem stale_garbage_collectF (vm : VM) (fuel : Nat) (vm2 : VM) (id : Index)
    (h : Stale vm.objects id) (hgc : vm.garbage_collectF fuel = some vm2) :
    Stale vm2.objects id := by
  unfold VM.garbage_collectF at hgc
  by_cases hon : vm.gc_on
  · rw [if_pos hon] at hgc
    cases hM : mark_allF fuel vm with
    | none => rw [hM] at hgc; cases hgc
    | some vmM =>
      rw [hM] at hgc
      simp only [Option.map_some', Option.some.injEq] at hgc
      subst hgc
      obtain ⟨hshape, _⟩ := markFold_spec (markF fuel) (markF_spec fuel) vm.stack vm vmM hM
      exact stale_sweep vmM id (stale_sameShape hshape h)
  · rw [if_neg hon] at hgc
    rw [← Option.some.inj hgc]
    exact h

theorem stale_push_valueF (vm : VM) (v : Value) (fuel : Nat) (vm2 : VM) (id : Index)
    (h : Stale vm.objects id) (hp : vm.push_valueF fuel v = some vm2) :
    Stale vm2.objects id := by
  unfold VM.push_valueF at hp
  cases hins : vm.objects.insertWith (fun idx => Object.new idx v) with
  | none => rw [hins] at hp; cases hp
  | some p =>
    obtain ⟨idx, arena⟩ := p
    rw [hins] at hp
    have hmid : Stale arena id := stale_insertWith vm.objects _ idx arena hins id h
    replace hp : (if arena.len > vm.max_objects then
        ({ vm with objects := arena, stack := idx :: vm.stack } : VM).garbage_collectF fuel
        else some { vm with objects := arena, stack := idx :: vm.stack }) = some vm2 := hp
    split at hp
    · exact stale_garbage_collectF _ fuel vm2 id hmid hp
    · rw [← Option.some.inj hp]
      exact hmid

theorem pop_objects (vm : VM) : (vm.pop).1.objects = vm.objects := by
  unfold VM.pop
  cases vm.stack <;> rfl

theorem stale_applyOp (vm : VM) (op : VMOp) (fuel : Nat) (vm2 : VM) (id : Index)
    (h : Stale vm.objects id) (hap : applyOpF fuel vm op = some vm2) :
    Stale vm2.objects id := by
  cases op with
  | pushValue v => exact stale_push_valueF vm v fuel vm2 id h hap
  | pushId i =>
    rw [← Option.some.inj hap]
    exact h
  | popOp =>
    rw [← Option.some.inj hap]
    show Stale (vm.pop).1.objects id
    rw [pop_objects vm]
    exact h
  | gcSet b =>
    replace hap : (if ({ vm with gc_on := b } : VM).gc_on ∧
        ({ vm with gc_on := b } : VM).objects.len >
          ({ vm with gc_on := b } : VM).max_objects
        then ({ vm with gc_on := b } : VM).garbage_collectF fuel
        else some { vm with gc_on := b }) = some vm2 := hap
    split at hap
    · exact stale_garbage_collectF { vm with gc_on := b } fuel vm2 id h hap
    · rw [← Option.some.inj hap]
      exact h
  | collect => exact stale_garbage_collectF vm fuel vm2 id h hap

theorem stale_applyOps : ∀ (ops : List VMOp) (vm : VM) (fuel : Nat) (vm2 : VM)
    (id : Index), Stale vm.objects id → applyOpsF fuel vm ops = some vm2 →
    Stale vm2.objects id := by
  intro ops
  induction ops with
  | nil =>
    intro vm fuel vm2 id h hap
    rw [← Option.some.inj hap]
    exact h
  | cons op rest ih =>
    intro vm fuel vm2 id h hap
    unfold applyOpsF at hap
    cases hop : applyOpF fuel vm op with
    | none => rw [hop] at hap; cases hap
    | some vm1 =>
      rw [hop] at hap
      exact ih vm1 fuel vm2 id (stale_applyOp vm op fuel vm1 id h hop) hap

theorem stale_after_collect (vm : VM) (id : Index) (o : Object Value) (fuel : Nat)
    (vm2 : VM) (hgen : genInv vm.objects) (hlive : vm.objects.get id = some o)
    (hgc : vm.garbage_collectF fuel = some vm2) (hfreed : vm2.objects.get id = none) :
    Stale vm2.objects id := by
  unfold VM.garbage_collectF at hgc
  by_cases hon : vm.gc_on
  · rw [if_pos hon] at hgc
    cases hM : mark_allF fuel vm with
    | none => rw [hM] at hgc; cases hgc
    | some vmM =>
      rw [hM] at hgc
      simp only [Option.map_some', Option.some.injEq] at hgc
      subst hgc
      obtain ⟨hshape, _⟩ := markFold_spec (markF fuel) (markF_spec fuel) vm.stack vm vmM hM
      have hgenM : genInv vmM.objects :=
        genInv_congr vm.objects vmM.objects hshape.2.2.2.1 hshape.2.2.2.2.2.2 hgen
      have hmap := sameShape_get hshape id
      rw [hlive] at hmap
      cases hMid : vmM.objects.get id with
      | none => rw [hMid] at hmap; simp at hmap
      | some oM =>
        refine ⟨?_, hfreed⟩
        exact sweepSlots_stale (List.range vmM.objects.items.length) vmM.objects id oM
          (List.nodup_range _) hgenM hMid hfreed
  · rw [if_neg hon] at hgc
    rw [← Option.some.inj hgc] at hfreed
    rw [hlive] at hfreed
    cases hfreed

/-- C5: once a collection has freed an identifier's backing slot (its
generation bumped past the identifier's), dereferencing it through the
heap's `get`/`get_mut` fails — deterministically, and forever: no
subsequent sequence of VM operations, slot reuse included, ever makes
the stale identifier resolve to the slot's new occupant. -/
theorem stale_identifier_never_resolves (vm : VM) (id : Index) (o : Object Value)
    (fuel : Nat) (vm2 : VM)
    (hgen : genInv vm.objects) (hlive : vm.get id = some o)
    (hgc : vm.garbage_collectF fuel = some vm2) (hfreed : vm2.get id = none) :
    ∀ (ops : List VMOp) (fuel2 : Nat) (vm3 : VM),
      applyOpsF fuel2 vm2 ops = some vm3 → vm3.get id = none := by
  intro ops fuel2 vm3 h
  have hstale : Stale vm2.objects id :=
    stale_after_collect vm id o fuel vm2 hgen hlive hgc hfreed
  exact (stale_applyOps ops vm2 fuel2 vm3 id hstale h).2

/-- Witness for C5: after collecting `c5vm`, the freed slot 1 is reused
by a later allocation (new identifier `⟨1, 1⟩`, payload `Int 9`), yet
the stale identifier `⟨1, 0⟩` still fails to dereference. -/
theorem stale_identifier_never_resolves_witness :
    c5final.get ⟨1, 0⟩ = none ∧
    (c5final.get ⟨1, 1⟩).map (fun o => o.value) = some (.Int 9) :=
  ⟨stale_identifier_never_resolves c5vm ⟨1, 0⟩
      { marked := false, index := ⟨1, 0⟩, value := .Int 2 } 3 c5afterGC
      (by decide) (by decide) (by decide) (by decide) c5ops 3 c5final (by decide),
    by decide⟩

/-! ## Claim theorems: the struct field order bug (C2) -/

/-- C2 (evaluating the code at the failing input): running
`[ConstInt 1, ConstInt 2, PushStruct 2, GetStruct 1]` leaves the top of
stack rendering as `"1i"` — not the `"2i"` the specification states —
because `PushStruct` collects the popped values in pop order (the
`.rev()` in the source reverses the ignored arguments of the closure,
not the pops). -/
theorem pushstruct_fields_pop_order_bug :
    ((Interpreter.new c2prog).bind (fun it =>
      (it.runF 20).bind (fun p =>
        match p.2 with
        | .ok idx => p.1.vm.displayF 20 idx
        | .error _ => none))) = some "1i" := by
  decide

/-! ## The load loop characterized (C3, C7) -/

theorem loadStep_label (st : LoadSt) (s : String) :
    loadStep st (.Label s) = { st with next_label := some s } := rfl

theorem loadStep_instr (st : LoadSt) (i : Instruction) (h : i.isLabel = false) :
    loadStep st i = loadInsert st i := by
  cases i <;> first | rfl | simp [Instruction.isLabel] at h

theorem label_or_not (i : Instruction) : (∃ s, i = .Label s) ∨ i.isLabel = false := by
  cases i
  case Label s => exact Or.inl ⟨s, rfl⟩
  all_goals exact Or.inr rfl

theorem map_free_entries {T α : Type} (g : α → Entry T)
    (hg : ∀ x, ∃ m, g x = Entry.Free m) (l : List α) (k : Nat) (e : Entry T)
    (h : (l.map g)[k]? = some e) : ∃ m, e = Entry.Free m := by
  rw [List.getElem?_map] at h
  cases hx : l[k]? with
  | none => rw [hx] at h; cases h
  | some x =>
    rw [hx] at h
    obtain ⟨m, hm⟩ := hg x
    refine ⟨m, ?_⟩
    rw [← Option.some.inj h, hm]

theorem set_append_len {α : Type} : ∀ (A B : List α) (x : α),
    (A ++ B).set A.length x = A ++ B.set 0 x := by
  intro A
  induction A with
  | nil => intro B x; rfl
  | cons a A ih =>
    intro B x
    simp only [List.cons_append, List.length_cons, List.set_cons_succ]
    rw [ih B x]

theorem seqArena_get (cap : Nat) (done : List Instruction) (i : Nat) :
    (seqArena cap done).get ⟨i, 0⟩ = done[i]? := by
  unfold seqArena Arena.get
  rw [List.getElem?_append]
  by_cases h : i < (done.map (fun i => Entry.Occupied 0 i)).length
  · rw [if_pos h]
    rw [List.getElem?_map]
    cases hx : done[i]? with
    | none => rfl
    | some d => rfl
  · rw [if_neg h]
    rw [List.length_map] at h
    rw [List.getElem?_eq_none (l := done) (by omega)]
    cases hx : ((List.range' done.length (cap - done.length)).map
        (fun i => if i + 1 = cap then Entry.Free none
                  else Entry.Free (some (i + 1))))[i - (done.map
                    (fun i => Entry.Occupied 0 i)).length]? with
    | none => rfl
    | some e =>
      obtain ⟨m, rfl⟩ := map_free_entries _
        (fun x => by
          by_cases hc : x + 1 = cap
          · exact ⟨none, by rw [if_pos hc]⟩
          · exact ⟨some (x + 1), by rw [if_neg hc]⟩) _ _ e hx
      rfl

theorem Arena.occupy_free {T : Type} (a : Arena T) (i : Nat) (f : Index → T) (next : Option Nat)
    (he : a.items[i]? = some (.Free next)) :
    a.occupy i f = some (⟨i, a.generation⟩,
      ⟨a.items.set i (.Occupied a.generation (f ⟨i, a.generation⟩)), a.generation,
        next, a.len + 1⟩) := by
  unfold Arena.occupy
  rw [he]

theorem Arena.insert_free {T : Type} (a : Arena T) (v : T) (i : Nat) (next : Option Nat)
    (hh : a.free_list_head = some i) (he : a.items[i]? = some (.Free next)) :
    a.insert v = some (⟨i, a.generation⟩,
      ⟨a.items.set i (.Occupied a.generation v), a.generation, next, a.len + 1⟩) := by
  unfold Arena.insert Arena.insertWith
  rw [hh]
  show a.occupy i (fun x => v) = _
  rw [Arena.occupy_free a i _ next he]

theorem arena_mk_eq {T : Type} {i1 i2 : List (Entry T)} {g1 g2 : Nat}
    {f1 f2 : Option Nat} {l1 l2 : Nat} (hi : i1 = i2) (hg : g1 = g2)
    (hf : f1 = f2) (hl : l1 = l2) :
    (⟨i1, g1, f1, l1⟩ : Arena T) = ⟨i2, g2, f2, l2⟩ := by
  subst hi
  subst hg
  subst hf
  subst hl
  rfl

theorem set_append_len2 {α : Type} (A B : List α) (x : α) (n : Nat)
    (h : n = A.length) : (A ++ B).set n x = A ++ B.set 0 x := by
  subst h
  exact set_append_len A B x

theorem seqArena_items (cap : Nat) (done : List Instruction) (h : done.length < cap) :
    (seqArena cap done).items =
      done.map (fun i => Entry.Occupied 0 i) ++
        ((if done.length + 1 = cap then Entry.Free none
          else Entry.Free (some (done.length + 1))) ::
          (List.range' (done.length + 1) (cap - (done.length + 1))).map
            (fun i => if i + 1 = cap then Entry.Free none
                      else Entry.Free (some (i + 1)))) := by
  show done.map (fun i => Entry.Occupied 0 i) ++
    (List.range' done.length (cap - done.length)).map
      (fun i => if i + 1 = cap then Entry.Free none
                else Entry.Free (some (i + 1))) = _
  rw [show cap - done.length = (cap - (done.length + 1)) + 1 by omega,
    List.range'_succ, List.map_cons]

theorem seqArena_insert (cap : Nat) (done : List Instruction) (v : Instruction)
    (h : done.length < cap) :
    (seqArena cap done).insert v = some (⟨done.length, 0⟩, seqArena cap (done ++ [v])) := by
  have hfree : (seqArena cap done).free_list_head = some done.length := by
    show (if done.length < cap then some done.length else none) = some done.length
    rw [if_pos h]
  have hitems := seqArena_items cap done h
  have hidx : (seqArena cap done).items[done.length]? =
      some (if done.length + 1 = cap then Entry.Free none
            else Entry.Free (some (done.length + 1))) := by
    rw [hitems]
    rw [List.getElem?_append_right (by rw [List.length_map])]
    rw [List.length_map, Nat.sub_self, List.getElem?_cons_zero]
  have hitemsEq : (seqArena cap done).items.set done.length
      (Entry.Occupied (seqArena cap done).generation v) =
      (seqArena cap (done ++ [v])).items := by
    rw [hitems]
    rw [set_append_len2 _ _ _ _ (by rw [List.length_map])]
    rw [List.set_cons_zero]
    show _ = (done ++ [v]).map (fun i => Entry.Occupied 0 i) ++
      (List.range' (done ++ [v]).length (cap - (done ++ [v]).length)).map
        (fun i => if i + 1 = cap then Entry.Free none
                  else Entry.Free (some (i + 1)))
    rw [List.map_append, List.append_assoc]
    congr 1
    rw [show (done ++ [v]).length = done.length + 1 by simp]
    rfl
  by_cases hc : done.length + 1 = cap
  · rw [if_pos hc] at hidx
    rw [Arena.insert_free _ v done.length none hfree hidx]
    have hA : (⟨(seqArena cap done).items.set done.length
        (Entry.Occupied (seqArena cap done).generation v), 0, none,
        done.length + 1⟩ : Arena Instruction) =
        seqArena cap (done ++ [v]) := by
      show _ = (⟨(seqArena cap (done ++ [v])).items, 0,
        if (done ++ [v]).length < cap then some (done ++ [v]).length else none,
        (done ++ [v]).length⟩ : Arena Instruction)
      refine arena_mk_eq hitemsEq rfl ?_ (by simp)
      rw [if_neg (by simp only [List.length_append, List.length_singleton]; omega)]
    exact congrArg (fun t => some ((⟨done.length, 0⟩ : Index), t)) hA
  · rw [if_neg hc] at hidx
    rw [Arena.insert_free _ v done.length (some (done.length + 1)) hfree hidx]
    have hA : (⟨(seqArena cap done).items.set done.length
        (Entry.Occupied (seqArena cap done).generation v), 0,
        some (done.length + 1), done.length + 1⟩ : Arena Instruction) =
        seqArena cap (done ++ [v]) := by
      show _ = (⟨(seqArena cap (done ++ [v])).items, 0,
        if (done ++ [v]).length < cap then some (done ++ [v]).length else none,
        (done ++ [v]).length⟩ : Arena Instruction)
      refine arena_mk_eq hitemsEq rfl ?_ (by simp)
      rw [if_pos (by simp only [List.length_append, List.length_singleton]; omega)]
      simp
    exact congrArg (fun t => some ((⟨done.length, 0⟩ : Index), t)) hA

theorem loadSt_mk_eq {a1 a2 : Arena Instruction} {l1 l2 : List (String × Index)}
    {n1 n2 : Option String} {f1 f2 : Option Index} (ha : a1 = a2) (hl : l1 = l2)
    (hn : n1 = n2) (hf : f1 = f2) :
    (⟨a1, l1, n1, f1⟩ : LoadSt) = ⟨a2, l2, n2, f2⟩ := by
  subst ha
  subst hl
  subst hn
  subst hf
  rfl

theorem loadInsert_some (st : LoadSt) (instr : Instruction) (idx : Index)
    (arena : Arena Instruction) (h : st.instructions.insert instr = some (idx, arena)) :
    loadInsert st instr =
      { instructions := arena,
        first_instr := st.first_instr.or (some idx),
        labels := match st.next_label with
          | some lbl => (lbl, idx) :: st.labels
          | none => st.labels,
        next_label := none } := by
  unfold loadInsert
  rw [h]

theorem labelBindings_label (p : Option String) (k : Nat) (s : String)
    (rest : List Instruction) :
    labelBindings p k (.Label s :: rest) = labelBindings (some s) k rest := by
  cases p <;> rfl

theorem labelBindings_instr (p : Option String) (k : Nat) (x : Instruction)
    (rest : List Instruction) (h : x.isLabel = false) :
    labelBindings p k (x :: rest) = (match p with
      | some lbl => (lbl, (⟨k, 0⟩ : Index)) :: labelBindings none (k + 1) rest
      | none => labelBindings none (k + 1) rest) := by
  cases p <;> cases x <;> first | rfl | simp [Instruction.isLabel] at h

theorem pendingL_label (p : Option String) (s : String) (rest : List Instruction) :
    pendingL p (.Label s :: rest) = pendingL (some s) rest := by
  cases p <;> rfl

theorem pendingL_instr (p : Option String) (x : Instruction) (rest : List Instruction)
    (h : x.isLabel = false) :
    pendingL p (x :: rest) = pendingL none rest := by
  cases p <;> cases x <;> first | rfl | simp [Instruction.isLabel] at h

theorem labelNames_instr (x : Instruction) (rest : List Instruction)
    (h : x.isLabel = false) :
    labelNames (x :: rest) = labelNames rest := by
  cases x <;> first | rfl | simp [Instruction.isLabel] at h

theorem labelBindings_nil (p : Option String) (k : Nat) :
    labelBindings p k [] = [] := by
  cases p <;> rfl

theorem pendingL_nil (p : Option String) : pendingL p [] = p := by
  cases p <;> rfl

theorem withCapacity_seq (n : Nat) :
    (Arena.withCapacity n : Arena Instruction) = seqArena (max n 1) [] := by
  show (⟨[] ++ (List.range' 0 (max n 1)).map
      (fun i => if i + 1 = 0 + max n 1 then Entry.Free none
                else Entry.Free (some (i + 1))), 0, some 0, 0⟩ : Arena Instruction) =
    ⟨([] : List Instruction).map (fun i => Entry.Occupied 0 i) ++
      (List.range' 0 (max n 1 - 0)).map
        (fun i => if i + 1 = max n 1 then Entry.Free none
                  else Entry.Free (some (i + 1))), 0,
      if 0 < max n 1 then some 0 else none, 0⟩
  refine arena_mk_eq ?_ rfl ?_ rfl
  · rw [List.nil_append, List.map_nil, List.nil_append, Nat.sub_zero]
    have hf : (fun i => if i + 1 = 0 + max n 1 then (Entry.Free none : Entry Instruction)
        else Entry.Free (some (i + 1))) =
        (fun i => if i + 1 = max n 1 then Entry.Free none
        else Entry.Free (some (i + 1))) := by
      funext i
      rw [Nat.zero_add]
    rw [hf]
  · rw [if_pos (by omega)]

theorem load_fold : ∀ (pre : List Instruction) (cap : Nat) (done : List Instruction)
    (lbls : List (String × Index)) (p : Option String) (fi : Option Index),
    done.length + (pre.filter (fun i => !i.isLabel)).length ≤ cap →
    List.foldl loadStep ⟨seqArena cap done, lbls, p, fi⟩ pre =
      ⟨seqArena cap (done ++ pre.filter (fun i => !i.isLabel)),
        (labelBindings p done.length pre).reverse ++ lbls,
        pendingL p pre,
        fi.or (if (pre.filter (fun i => !i.isLabel)).length = 0
          then none else some ⟨done.length, 0⟩)⟩ := by
  intro pre
  induction pre with
  | nil =>
    intro cap done lbls p fi hcap
    rw [List.foldl_nil]
    refine loadSt_mk_eq ?_ ?_ ?_ ?_
    · rw [List.filter_nil, List.append_nil]
    · rw [labelBindings_nil, List.reverse_nil, List.nil_append]
    · rw [pendingL_nil]
    · rw [List.filter_nil]
      show fi = fi.or none
      rw [Option.or_none]
  | cons x rest ih =>
    intro cap done lbls p fi hcap
    rcases label_or_not x with ⟨s, rfl⟩ | hx
    · have hfilt : (Instruction.Label s :: rest).filter (fun i => !i.isLabel) =
          rest.filter (fun i => !i.isLabel) :=
        List.filter_cons_of_neg (by simp [Instruction.isLabel])
      rw [hfilt] at hcap
      rw [List.foldl_cons, loadStep_label, hfilt, labelBindings_label, pendingL_label]
      show List.foldl loadStep ⟨seqArena cap done, lbls, some s, fi⟩ rest = _
      rw [ih cap done lbls (some s) fi hcap]
    · have hfilt : (x :: rest).filter (fun i => !i.isLabel) =
          x :: rest.filter (fun i => !i.isLabel) :=
        List.filter_cons_of_pos (by simp [hx])
      rw [hfilt] at hcap
      rw [List.length_cons] at hcap
      have hlt : done.length < cap := by omega
      rw [List.foldl_cons, loadStep_instr _ _ hx,
        loadInsert_some _ _ ⟨done.length, 0⟩ (seqArena cap (done ++ [x]))
          (seqArena_insert cap done x hlt),
        hfilt, labelBindings_instr p done.length x rest hx, pendingL_instr p x rest hx]
      rw [ih cap (done ++ [x]) _ none _ (by
        rw [List.length_append, List.length_singleton]
        omega)]
      have hlen1 : (done ++ [x]).length = done.length + 1 := by
        rw [List.length_append, List.length_singleton]
      cases p with
      | none =>
        refine loadSt_mk_eq ?_ ?_ rfl ?_
        · rw [List.append_assoc]
          rfl
        · rw [hlen1]
        · cases fi <;> rfl
      | some lbl =>
        refine loadSt_mk_eq ?_ ?_ rfl ?_
        · rw [List.append_assoc]
          rfl
        · show (labelBindings none (done ++ [x]).length rest).reverse ++
            ((lbl, (⟨done.length, 0⟩ : Index)) :: lbls) =
            ((lbl, (⟨done.length, 0⟩ : Index)) ::
              labelBindings none (done.length + 1) rest).reverse ++ lbls
          rw [hlen1, List.reverse_cons, List.append_assoc]
          rfl
        · cases fi <;> rfl

theorem interp_mk_eq {v1 v2 : VM} {a1 a2 : Arena Instruction}
    {l1 l2 : List (String × Index)} {f1 f2 : Option Frame}
    (hv : v1 = v2) (ha : a1 = a2) (hl : l1 = l2) (hf : f1 = f2) :
    (⟨v1, a1, l1, f1⟩ : Interpreter) = ⟨v2, a2, l2, f2⟩ := by
  subst hv
  subst ha
  subst hl
  subst hf
  rfl

/-- What `Interpreter::new` builds, in closed form: the instruction store
holds the non-label instructions in order, the label table is the reversed
chronological binding list, and the frame points at slot 0 exactly when
some non-label instruction exists. -/
theorem interpreter_new_eq (l : List Instruction) :
    Interpreter.new l = some
      ⟨VM.new 10,
        seqArena (max l.length 1) (l.filter (fun i => !i.isLabel)),
        (labelBindings none 0 l).reverse,
        if (l.filter (fun i => !i.isLabel)).length = 0 then none
          else some ⟨⟨0, 0⟩, []⟩⟩ := by
  unfold Interpreter.new
  rw [withCapacity_seq l.length]
  rw [load_fold l (max l.length 1) [] [] none none (by
    have := List.length_filter_le (fun i => !i.isLabel) l
    simp only [List.length_nil]
    omega)]
  refine congrArg some (interp_mk_eq rfl ?_ ?_ ?_)
  · show seqArena (max l.length 1) ([] ++ l.filter (fun i => !i.isLabel)) = _
    rw [List.nil_append]
  · show (labelBindings none ([] : List Instruction).length l).reverse ++ [] = _
    rw [List.append_nil, List.length_nil]
  · show Option.map _ (if (l.filter (fun i => !i.isLabel)).length = 0 then none
      else some (⟨0, 0⟩ : Index)) = _
    split <;> rfl

theorem lookupLabel_cons_self (s : String) (i : Index) (rest : List (String × Index)) :
    lookupLabel ((s, i) :: rest) s = some i := by
  show (if s = s then some i else lookupLabel rest s) = some i
  rw [if_pos rfl]

theorem lookupLabel_append_of_absent (A B : List (String × Index)) (s : String)
    (h : ∀ e ∈ A, e.1 ≠ s) : lookupLabel (A ++ B) s = lookupLabel B s := by
  induction A with
  | nil => rfl
  | cons e A ih =>
    rw [List.cons_append]
    show (if e.1 = s then some e.2 else lookupLabel (A ++ B) s) = _
    rw [if_neg (h e (List.mem_cons_self e A))]
    exact ih (fun x hx => h x (List.mem_cons_of_mem e hx))

theorem lookupLabel_absent (A : List (String × Index)) (s : String)
    (h : ∀ e ∈ A, e.1 ≠ s) : lookupLabel A s = none := by
  induction A with
  | nil => rfl
  | cons e A ih =>
    show (if e.1 = s then some e.2 else lookupLabel A s) = none
    rw [if_neg (h e (List.mem_cons_self e A))]
    exact ih (fun x hx => h x (List.mem_cons_of_mem e hx))

/-- Every key the load loop binds while scanning `post` is either the
starting pending label or a label marker of `post`. -/
theorem lb_keys : ∀ (post : List Instruction) (p : Option String) (k : Nat)
    (e : String × Index), e ∈ labelBindings p k post →
    p = some e.1 ∨ e.1 ∈ labelNames post := by
  intro post
  induction post with
  | nil =>
    intro p k e he
    rw [labelBindings_nil] at he
    cases he
  | cons x rest ih =>
    intro p k e he
    rcases label_or_not x with ⟨s, rfl⟩ | hx
    · rw [labelBindings_label] at he
      rcases ih (some s) k e he with hs | hm
      · right
        show e.1 ∈ s :: labelNames rest
        exact (Option.some.inj hs) ▸ List.mem_cons_self s (labelNames rest)
      · right
        show e.1 ∈ s :: labelNames rest
        exact List.mem_cons_of_mem s hm
    · rw [labelBindings_instr p k x rest hx] at he
      rw [labelNames_instr x rest hx]
      cases p with
      | none =>
        rcases ih none (k + 1) e he with hs | hm
        · cases hs
        · exact Or.inr hm
      | some lbl =>
        rcases List.mem_cons.mp he with rfl | hm
        · exact Or.inl rfl
        · rcases ih none (k + 1) e hm with hs | hm2
          · cases hs
          · exact Or.inr hm2

/-- `labelBindings` over an append: scan the first part, then the second
from the resulting pending label and slot counter. -/
theorem lb_append : ∀ (A B : List Instruction) (p : Option String) (k : Nat),
    labelBindings p k (A ++ B) =
      labelBindings p k A ++
        labelBindings (pendingL p A) (k + (A.filter (fun i => !i.isLabel)).length) B := by
  intro A
  induction A with
  | nil =>
    intro B p k
    rw [List.nil_append, labelBindings_nil, List.nil_append, pendingL_nil,
      List.filter_nil, List.length_nil, Nat.add_zero]
  | cons x rest ih =>
    intro B p k
    rcases label_or_not x with ⟨s, rfl⟩ | hx
    · rw [List.cons_append, labelBindings_label, labelBindings_label, pendingL_label,
        List.filter_cons_of_neg (by simp [Instruction.isLabel])]
      exact ih B (some s) k
    · rw [List.cons_append, labelBindings_instr p k x (rest ++ B) hx,
        labelBindings_instr p k x rest hx, pendingL_instr p x rest hx,
        List.filter_cons_of_pos (by simp [hx]), List.length_cons]
      cases p with
      | none =>
        rw [ih B none (k + 1)]
        rw [show k + ((rest.filter (fun i => !i.isLabel)).length + 1) =
          k + 1 + (rest.filter (fun i => !i.isLabel)).length by omega]
      | some lbl =>
        rw [ih B none (k + 1), List.cons_append]
        rw [show k + ((rest.filter (fun i => !i.isLabel)).length + 1) =
          k + 1 + (rest.filter (fun i => !i.isLabel)).length by omega]

theorem labelBindings_instr_some (lbl : String) (k : Nat) (x : Instruction)
    (rest : List Instruction) (h : x.isLabel = false) :
    labelBindings (some lbl) k (x :: rest) =
      (lbl, (⟨k, 0⟩ : Index)) :: labelBindings none (k + 1) rest := by
  cases x <;> first | rfl | simp [Instruction.isLabel] at h

/-- C3 (corrected): `Interpreter::new` never returns `none` — it returns
`Some` even on an empty or all-label sequence, merely with no frame — and
when the input contains a non-label instruction, the returned
interpreter's frame points at the first non-label instruction: slot 0 of
the instruction store, which holds that instruction, with an empty locals
stack. -/
theorem interpreter_new_first_nonlabel :
    (∀ l : List Instruction, (Interpreter.new l).isSome = true) ∧
    (∀ (l : List Instruction) (x : Instruction) (rest : List Instruction),
      l.filter (fun i => !i.isLabel) = x :: rest →
      ∃ it, Interpreter.new l = some it ∧
        it.frame = some ⟨⟨0, 0⟩, []⟩ ∧
        it.instructions.get ⟨0, 0⟩ = some x) := by
  constructor
  · intro l
    rw [interpreter_new_eq l]
    rfl
  · intro l x rest hf
    refine ⟨_, interpreter_new_eq l, ?_, ?_⟩
    · show (if (l.filter (fun i => !i.isLabel)).length = 0 then none
        else some (⟨⟨0, 0⟩, []⟩ : Frame)) = _
      rw [hf, List.length_cons, if_neg (by omega)]
    · show (seqArena (max l.length 1) (l.filter (fun i => !i.isLabel))).get ⟨0, 0⟩ = _
      rw [seqArena_get, hf, List.getElem?_cons_zero]

/-- C3 witness: loading `[Label "a", ConstInt 7]` yields an interpreter
whose frame points at slot 0, holding `ConstInt 7`. -/
theorem interpreter_new_first_nonlabel_witness :
    ∃ it, Interpreter.new [.Label "a", .ConstInt 7] = some it ∧
      it.frame = some ⟨⟨0, 0⟩, []⟩ ∧
      it.instructions.get ⟨0, 0⟩ = some (.ConstInt 7) :=
  interpreter_new_first_nonlabel.2 [.Label "a", .ConstInt 7] (.ConstInt 7) [] rfl

/-- C3 counterexample: on the empty instruction sequence `Interpreter::new`
returns `Some` interpreter (with no frame), not the `none` the claim's
`none-if-empty` requires. -/
theorem interpreter_new_empty_not_none :
    (Interpreter.new ([] : List Instruction)).isSome = true ∧
    Option.map (fun it => it.frame) (Interpreter.new ([] : List Instruction)) =
      some none := by
  rw [interpreter_new_eq]
  exact ⟨rfl, rfl⟩

/-- C7 (corrected): a `Label(name)` immediately followed by a non-label
instruction is bound to that instruction's slot — provided `name` is not
bound again later — the bound slot holds that very instruction, and a
trailing label with no following non-label instruction is simply absent
from the table; the claim's stronger clause that *each* of several
consecutive labels before the same instruction is bound fails, because a
later label overwrites the pending one (see the counterexample). -/
theorem label_binds_next_nonlabel :
    (∀ (pre post : List Instruction) (name : String) (instr : Instruction),
      instr.isLabel = false → name ∉ labelNames post →
      ∃ it, Interpreter.new (pre ++ .Label name :: instr :: post) = some it ∧
        lookupLabel it.labels name =
          some ⟨(pre.filter (fun i => !i.isLabel)).length, 0⟩ ∧
        it.instructions.get ⟨(pre.filter (fun i => !i.isLabel)).length, 0⟩ =
          some instr) ∧
    (∀ (pre : List Instruction) (name : String),
      name ∉ labelNames pre →
      ∃ it, Interpreter.new (pre ++ [.Label name]) = some it ∧
        lookupLabel it.labels name = none) := by
  constructor
  · intro pre post name instr hinstr hname
    refine ⟨_, interpreter_new_eq _, ?_, ?_⟩
    · show lookupLabel (labelBindings none 0
        (pre ++ .Label name :: instr :: post)).reverse name = _
      rw [lb_append pre (.Label name :: instr :: post) none 0,
        labelBindings_label,
        labelBindings_instr_some name _ instr post hinstr,
        List.reverse_append, List.reverse_cons, List.append_assoc]
      have habs : ∀ e ∈ (labelBindings none
          (0 + (pre.filter (fun i => !i.isLabel)).length + 1) post).reverse,
          e.1 ≠ name := by
        intro e he heq
        rcases lb_keys post none _ e (List.mem_reverse.mp he) with hs | hm
        · cases hs
        · exact hname (heq ▸ hm)
      rw [lookupLabel_append_of_absent _ _ name habs, Nat.zero_add]
      show lookupLabel ((name, (⟨(pre.filter (fun i => !i.isLabel)).length, 0⟩ :
        Index)) :: (labelBindings none 0 pre).reverse) name = _
      rw [lookupLabel_cons_self]
    · show (seqArena (max (pre ++ .Label name :: instr :: post).length 1)
        ((pre ++ .Label name :: instr :: post).filter (fun i => !i.isLabel))).get
          ⟨(pre.filter (fun i => !i.isLabel)).length, 0⟩ = some instr
      rw [seqArena_get, List.filter_append,
        List.filter_cons_of_neg (by simp [Instruction.isLabel]),
        List.filter_cons_of_pos (by simp [hinstr]),
        List.getElem?_append_right (Nat.le_refl _),
        Nat.sub_self, List.getElem?_cons_zero]
  · intro pre name hname
    refine ⟨_, interpreter_new_eq _, ?_⟩
    show lookupLabel (labelBindings none 0 (pre ++ [.Label name])).reverse name = none
    rw [lb_append pre [.Label name] none 0, labelBindings_label, labelBindings_nil,
      List.append_nil]
    refine lookupLabel_absent _ _ (fun e he heq => ?_)
    rcases lb_keys pre none 0 e (List.mem_reverse.mp he) with hs | hm
    · cases hs
    · exact hname (heq ▸ hm)

/-- C7 witness: `Label "L"` before `ConstInt 5` is bound to slot 0, which
holds `ConstInt 5`; the trailing `Label "Z"` of the second program is
absent from its table. -/
theorem label_binds_next_nonlabel_witness :
    (∃ it, Interpreter.new [.Label "L", .ConstInt 5] = some it ∧
      lookupLabel it.labels "L" = some ⟨0, 0⟩ ∧
      it.instructions.get ⟨0, 0⟩ = some (.ConstInt 5)) ∧
    (∃ it, Interpreter.new [.ConstInt 9, .Label "Z"] = some it ∧
      lookupLabel it.labels "Z" = none) :=
  ⟨label_binds_next_nonlabel.1 [] [] "L" (.ConstInt 5) rfl (by decide),
   label_binds_next_nonlabel.2 [.ConstInt 9] "Z" (by decide)⟩

/-- C7 counterexample: of two consecutive labels before `ConstInt 1` only
the second survives loading — `"a"` is absent from the table while `"b"`
maps to slot 0 — refuting the claim for the earlier label of the run. -/
theorem consecutive_label_dropped :
    Option.map (fun it => (lookupLabel it.labels "a", lookupLabel it.labels "b"))
      (Interpreter.new [.Label "a", .Label "b", .ConstInt 1]) =
      some (none, some ⟨0, 0⟩) := by
  decide

end MiniGC
